import Mathlib

/-!
Verification development for the ghee snapshot-retention engine
(duration/retention parsing, calendar truncation, the TimeBins GFS
algorithm, and the Delete→Keep intent scheduler).

Timestamps: the source operates on `DateTime<FixedOffset>` values that all
carry the same fixed offset (every constructed value reuses the offset of
its input, and comparisons between same-offset values coincide with
comparisons of the naive local date-time).  We therefore model a timestamp
as the number of seconds since 1970-01-01T00:00:00 of its naive local
date-time, as an unbounded `Int`.  Calendar conversions follow the
standard proleptic-Gregorian algorithms that chrono implements.
-/

namespace Ghee

/-- Seconds of naive local time since 1970-01-01T00:00:00. -/
abbrev DT := Int

/-- Gregorian leap-year test. -/
def isLeap (y : Int) : Bool :=
  y % 4 == 0 && (y % 100 != 0 || y % 400 == 0)

/-- Days since 1970-01-01 of the civil date y-m-d (proleptic Gregorian). -/
def daysFromCivil (y m d : Int) : Int :=
  let y' := if m ≤ 2 then y - 1 else y
  let era := (if 0 ≤ y' then y' else y' - 399).ediv 400
  let yoe := y' - era * 400
  let mp := (m + 9) % 12
  let doy := (153 * mp + 2).ediv 5 + d - 1
  let doe := yoe * 365 + yoe.ediv 4 - yoe.ediv 100 + doy
  era * 146097 + doe - 719468

/-- Civil date (y, m, d) of a day count since 1970-01-01. -/
def civilFromDays (z0 : Int) : Int × Int × Int :=
  let z := z0 + 719468
  let era := (if 0 ≤ z then z else z - 146096).ediv 146097
  let doe := z - era * 146097
  let yoe := (doe - doe.ediv 1460 + doe.ediv 36524 - doe.ediv 146096).ediv 365
  let y := yoe + era * 400
  let doy := doe - (365 * yoe + yoe.ediv 4 - yoe.ediv 100)
  let mp := (5 * doy + 2).ediv 153
  let d := doy - (153 * mp + 2).ediv 5 + 1
  let m := mp + (if mp < 10 then 3 else -9)
  (if m ≤ 2 then y + 1 else y, m, d)

/-- Build a timestamp from civil fields (the `ymd(..).and_hms(..)` idiom). -/
def mkDT (y m d hh mi ss : Int) : DT :=
  daysFromCivil y m d * 86400 + hh * 3600 + mi * 60 + ss

/-- Day count of a timestamp. -/
def dayNum (ts : DT) : Int := ts.ediv 86400

/-- Second within the day of a timestamp. -/
def secOfDay (ts : DT) : Int := ts.emod 86400

def yearOf (ts : DT) : Int := (civilFromDays (dayNum ts)).1
def monthOf (ts : DT) : Int := (civilFromDays (dayNum ts)).2.1
def dayOf (ts : DT) : Int := (civilFromDays (dayNum ts)).2.2
def hourOf (ts : DT) : Int := (secOfDay ts).ediv 3600

/-- `duration_trunc_hour`: same date, same hour, minute/second zeroed. -/
def duration_trunc_hour (ts : DT) : DT :=
  mkDT (yearOf ts) (monthOf ts) (dayOf ts) (hourOf ts) 0 0

/-- `duration_trunc_day`: same date, 00:00:00. -/
def duration_trunc_day (ts : DT) : DT :=
  mkDT (yearOf ts) (monthOf ts) (dayOf ts) 0 0 0

/-- `duration_trunc_month`: same year and month, day 1, 00:00:00. -/
def duration_trunc_month (ts : DT) : DT :=
  mkDT (yearOf ts) (monthOf ts) 1 0 0 0

/-- `duration_trunc_year`: same year, Jan 1, 00:00:00. -/
def duration_trunc_year (ts : DT) : DT :=
  mkDT (yearOf ts) 1 1 0 0 0

/-- Weekday of a day count, Monday = 0 … Sunday = 6 (1970-01-01 = Thursday). -/
def weekdayOf (z : Int) : Int := (z + 3).emod 7

/-- Day count of the Monday starting ISO week 1 of ISO year `y`
(the week containing January 4). -/
def isoWeek1Monday (y : Int) : Int :=
  let j4 := daysFromCivil y 1 4
  j4 - weekdayOf j4

/-- Number of ISO weeks (52 or 53) in ISO year `y`. -/
def isoWeeksInYear (y : Int) : Int :=
  if weekdayOf (daysFromCivil y 1 1) == 3 ||
      (isLeap y && weekdayOf (daysFromCivil y 1 1) == 2) then 53 else 52

/-- Day count of ISO (year, week, weekday) with weekday Monday = 0 … Sunday = 6;
this is the date chrono's `isoywd` constructs when the week is valid. -/
def isoywdDay (y w wd : Int) : Int :=
  isoWeek1Monday y + 7 * (w - 1) + wd

/-- Validity of an ISO (year, week) pair; chrono's `isoywd` panics (and
`isoywd_opt` returns `None`) when this is false. -/
def isoywdValid (y w : Int) : Bool :=
  1 ≤ w && w ≤ isoWeeksInYear y

/-- The `[Monday 00:00:00, Sunday 23:59:59]` containment test performed for
one candidate ISO week in `duration_trunc_week`; returns the Monday
timestamp on success. -/
def weekCheck (y w : Int) (ts : DT) : Option DT :=
  let mon := isoywdDay y w 0 * 86400
  let sun := isoywdDay y w 6 * 86400 + 86399
  if mon ≤ ts ∧ ts ≤ sun then some mon else none

/-- The `for i in 1..=53` scan over weeks of the current year, followed by
the week-1-of-next-year check and the final `panic!("did not find week")`.
Inside the loop the source constructs the week via the panicking `isoywd`,
so an invalid (year, i) pair aborts with chrono's panic before any
containment test. -/
def weekLoop (year : Int) (ts : DT) : List Int → Except String DT
  | [] =>
    match weekCheck (year + 1) 1 ts with
    | some mon => .ok mon
    | none => .error "did not find week"
  | i :: rest =>
    if isoywdValid year i then
      match weekCheck year i ts with
      | some mon => .ok mon
      | none => weekLoop year ts rest
    else
      .error "invalid isoywd"

/-- `duration_trunc_week`: check week 52 of the previous year, then (via
`isoywd_opt`) week 53 of the previous year when it exists, then weeks
1..=53 of the current year, then week 1 of the next year.  `.error`
models a panic (either chrono's inside `isoywd`, or the function's own). -/
def duration_trunc_week (ts : DT) : Except String DT :=
  let year := yearOf ts
  match weekCheck (year - 1) 52 ts with
  | some mon => .ok mon
  | none =>
    if isoywdValid (year - 1) 53 then
      match weekCheck (year - 1) 53 ts with
      | some mon => .ok mon
      | none => weekLoop year ts (List.range' 1 53)
    else
      weekLoop year ts (List.range' 1 53)

/-!
The duration/retention grammar.  Both parsers run the anchored regex
`(?:(\d+)h)?\s*(?:(\d+)d)?\s*(?:(\d+)w)?\s*(?:(\d+)m)?\s*(?:(\d+)y)?`
over the whole string.  Because the five components end in pairwise
distinct letters, regex matching is equivalent to the deterministic
maximal-munch scan below: read the maximal digit run; the component
commits exactly when the run is nonempty and the expected letter follows;
each inter-component `\s*` consumes the maximal whitespace run.
-/

/-- Numeric value of a digit run. -/
def digitsVal (l : List Char) : Nat :=
  l.foldl (fun a c => a * 10 + (c.toNat - 48)) 0

/-- One optional `(\d+)c` component of the regex: returns the captured
value (if the group participated) and the remaining input. -/
def component (c : Char) (s : List Char) : Option Nat × List Char :=
  let ds := s.takeWhile (fun x => x.isDigit)
  let rest := s.dropWhile (fun x => x.isDigit)
  if ds ≠ [] ∧ rest.head? = some c then (some (digitsVal ds), rest.tail)
  else (none, s)

/-- The regex crate's `\s`, i.e. the Unicode `White_Space` set:
U+0009–U+000D, U+0020, U+0085, U+00A0, U+1680, U+2000–U+200A, U+2028,
U+2029, U+202F, U+205F and U+3000. -/
def regexSpace (c : Char) : Bool :=
  decide ((0x9 ≤ c.toNat ∧ c.toNat ≤ 0xD) ∨ c.toNat = 0x20 ∨ c.toNat = 0x85 ∨
    c.toNat = 0xA0 ∨ c.toNat = 0x1680 ∨ (0x2000 ≤ c.toNat ∧ c.toNat ≤ 0x200A) ∨
    c.toNat = 0x2028 ∨ c.toNat = 0x2029 ∨ c.toNat = 0x202F ∨ c.toNat = 0x205F ∨
    c.toNat = 0x3000)

/-- One `\s*` of the regex. -/
def skipWs (s : List Char) : List Char :=
  s.dropWhile (fun x => regexSpace x)

/-- The five capture groups of the shared grammar regex. -/
structure RegexCaps where
  h : Option Nat
  d : Option Nat
  w : Option Nat
  m : Option Nat
  y : Option Nat
deriving DecidableEq

/-- Full anchored match of the grammar regex, yielding its captures. -/
def spanMatch (s0 : List Char) : Option RegexCaps :=
  let p1 := component 'h' s0
  let s1 := skipWs p1.2
  let p2 := component 'd' s1
  let s2 := skipWs p2.2
  let p3 := component 'w' s2
  let s3 := skipWs p3.2
  let p4 := component 'm' s3
  let s4 := skipWs p4.2
  let p5 := component 'y' s4
  if p5.2 = [] then some ⟨p1.1, p2.1, p3.1, p4.1, p5.1⟩ else none

/-- The five retention counts (usize fields in the source). -/
structure Retention where
  h : Nat
  d : Nat
  w : Nat
  m : Nat
  y : Nat
deriving DecidableEq

def Retention.zero : Retention := ⟨0, 0, 0, 0, 0⟩

/-- `str::parse::<usize>` on a captured digit run (64-bit target):
fails on overflow. -/
def parseUsize (o : Option Nat) : Except String Nat :=
  match o with
  | none => .ok 0
  | some n => if n < 2 ^ 64 then .ok n else .error "ParseIntError"

/-- `Retention::from_str`. -/
def Retention.fromStr (s : String) : Except String Retention :=
  match spanMatch s.data with
  | none => .error "DurationParseError"
  | some caps => do
    let h ← parseUsize caps.h
    let d ← parseUsize caps.d
    let w ← parseUsize caps.w
    let m ← parseUsize caps.m
    let y ← parseUsize caps.y
    pure ⟨h, d, w, m, y⟩

/-- An elapsed duration, in seconds (chrono `Duration` idealized as exact). -/
abbrev Dur := Int

def durationHours (n : Int) : Dur := n * 3600
def durationDays (n : Int) : Dur := n * 86400
def durationWeeks (n : Int) : Dur := n * 604800

/-- `str::parse::<i64>` on a captured digit run: fails on overflow. -/
def parseI64 (o : Option Nat) : Except String (Option Int) :=
  match o with
  | none => .ok none
  | some n => if n < 2 ^ 63 then .ok (some (Int.ofNat n)) else .error "ParseIntError"

/-- chrono `Duration`'s representable whole-second bound (`i64::MAX`
milliseconds, truncated to seconds): `Duration::seconds` panics outside
this range, modeled as an error. -/
def chronoMaxSecs : Int := 9223372036854775

def chronoSeconds (n : Int) : Except String Dur :=
  if -chronoMaxSecs ≤ n ∧ n ≤ chronoMaxSecs then .ok n
  else .error "Duration::seconds out of bounds"

/-- An `i64` product: the value when it is in range, otherwise a failure.
chrono's unit constructors multiply with `checked_mul(..).expect(..)` — a
panic in every build — and the source's own `4 * m` and `365 * y` are
plain `i64` products, whose overflow is a program error (a panic under
debug assertions), likewise modeled as a failure. -/
def i64Mul (a b : Int) : Except String Int :=
  if -9223372036854775808 ≤ a * b ∧ a * b ≤ 9223372036854775807 then .ok (a * b)
  else .error "i64 overflow"

/-- `Duration::hours`. -/
def chronoHours (n : Int) : Except String Dur := i64Mul n 3600 >>= chronoSeconds

/-- `Duration::days`. -/
def chronoDays (n : Int) : Except String Dur := i64Mul n 86400 >>= chronoSeconds

/-- `Duration::weeks`. -/
def chronoWeeks (n : Int) : Except String Dur := i64Mul n 604800 >>= chronoSeconds

/-- `duration_from_str`: sum of the parsed components, with months as
4 weeks and years as 365 days.  Each component goes through the
corresponding `Duration` constructor; the running `add` is chrono's
unchecked `Duration` addition, exact on in-range summands. -/
def duration_from_str (s : String) : Except String Dur :=
  match spanMatch s.data with
  | none => .error "DurationParseError"
  | some caps => do
    let h ← parseI64 caps.h
    let d ← parseI64 caps.d
    let w ← parseI64 caps.w
    let m ← parseI64 caps.m
    let y ← parseI64 caps.y
    let a0 : Dur := 0
    let a1 ← match h with | none => pure a0 | some v => (chronoHours v).map (a0 + ·)
    let a2 ← match d with | none => pure a1 | some v => (chronoDays v).map (a1 + ·)
    let a3 ← match w with | none => pure a2 | some v => (chronoWeeks v).map (a2 + ·)
    let a4 ← match m with
      | none => pure a3
      | some v => (i64Mul 4 v >>= chronoWeeks).map (a3 + ·)
    let a5 ← match y with
      | none => pure a4
      | some v => (i64Mul 365 v >>= chronoDays).map (a4 + ·)
    pure a5

/-!
The intent state machine and the scheduler (`Intent::delete_to_keep_intents`).

Intents live in `Rc<RefCell<..>>` cells that the scheduler mutates in
place; we model the collection as a `List SIntent` addressed by position,
and every in-place mutation as rebuilding the list with the affected
positions updated.  The scheduler reads an intent's timestamp only through
`Intent::timestamp()` (a pure function of its `name`, studied separately
below); here each intent carries that timestamp directly, and jobs are
identified by an id standing for the source's by-value `Job` equality. -/

inductive IntentType
  | Create
  | Keep
  | Delete
deriving DecidableEq

/-- `PreservePolicyMinVariants`. -/
inductive PreservePolicyMinVariants
  | All
  | Latest
deriving DecidableEq

/-- `PreservePolicyMin`. -/
inductive PreservePolicyMin
  | Variant (v : PreservePolicyMinVariants)
  | Timespan (s : String)
  | Count (n : Nat)
deriving DecidableEq

/-- `PreservePolicy`. -/
structure PreservePolicy where
  retention : String
  min : PreservePolicyMin
deriving DecidableEq

/-- A `Job`, with its by-value identity condensed into `id`. -/
structure SJob where
  id : Nat
  preserve : PreservePolicy
deriving DecidableEq

/-- An `Intent` as the scheduler sees it. -/
structure SIntent where
  kind : IntentType
  job : Nat
  ts : DT
deriving DecidableEq

/-- The filtered enumeration of the intent slice: positions of intents
with `kind = Delete` and the given job, paired with their timestamps,
in slice order. -/
def candAux (jid : Nat) : Nat → List SIntent → List (Nat × DT)
  | _, [] => []
  | i, x :: xs =>
    if x.kind = .Delete ∧ x.job = jid then (i, x.ts) :: candAux jid (i + 1) xs
    else candAux jid (i + 1) xs

/-- Stable descending insertion by timestamp. -/
def insertDesc (x : Nat × DT) : List (Nat × DT) → List (Nat × DT)
  | [] => [x]
  | y :: ys => if x.2 > y.2 then x :: y :: ys else y :: insertDesc x ys

/-- Stable descending sort by timestamp (the `sort_by_key(Reverse(ts))`). -/
def sortDesc : List (Nat × DT) → List (Nat × DT)
  | [] => []
  | x :: xs => insertDesc x (sortDesc xs)

/-- The job's Delete candidates, newest first. -/
def candidates (intents : List SIntent) (j : SJob) : List (Nat × DT) :=
  sortDesc (candAux j.id 0 intents)

/-- Set `kind := Keep` at every listed position (each `borrow_mut().intent
= Keep` of the source writes only the kind field). -/
def setKeepAux (keeps : List Nat) : Nat → List SIntent → List SIntent
  | _, [] => []
  | i, x :: xs =>
    (if i ∈ keeps then { x with kind := .Keep } else x) :: setKeepAux keeps (i + 1) xs

def setKeepAt (intents : List SIntent) (keeps : List Nat) : List SIntent :=
  setKeepAux keeps 0 intents

/-- The positions the min-preserve rule promotes, given the sorted
candidates. -/
def minPreserveKeeps (cands : List (Nat × DT)) (j : SJob) (now : DT) : List Nat :=
  match j.preserve.min with
  | .Variant .All => cands.map Prod.fst
  | .Variant .Latest => (cands.take 1).map Prod.fst
  | .Timespan s =>
    match duration_from_str s with
    | .error _ => cands.map Prod.fst
    | .ok d => (cands.takeWhile (fun c => c.2 > now - d)).map Prod.fst
  | .Count n => (cands.take n).map Prod.fst

/-- Stage 1 of the per-job pass: the min-preserve rule. -/
def minPreserveStage (intents : List SIntent) (j : SJob) (now : DT) : List SIntent :=
  setKeepAt intents (minPreserveKeeps (candidates intents j) j now)

/-- Association-list insert with replacement: the model of
`HashMap::insert` (bucket keys stay unique; an existing key's value is
overwritten). -/
def mapInsert (k : DT) (v : Nat) : List (DT × Nat) → List (DT × Nat)
  | [] => [(k, v)]
  | (k', v') :: rest => if k' = k then (k, v) :: rest else (k', v') :: mapInsert k v rest

/-- Association-list lookup. -/
def mapFind (k : DT) : List (DT × Nat) → Option Nat
  | [] => none
  | (k', v') :: rest => if k' = k then some v' else mapFind k rest

/-- `TimeBins`: per class, the bucket→intent assignment (`h` … `y`) and
the list of live bucket boundaries (`rh` … `ry`).  Intents appear as
positions into the scheduler's intent list. -/
structure TimeBins where
  h : List (DT × Nat)
  rh : List DT
  d : List (DT × Nat)
  rd : List DT
  w : List (DT × Nat)
  rw : List DT
  m : List (DT × Nat)
  rm : List DT
  y : List (DT × Nat)
  ry : List DT
deriving DecidableEq

/-- `TimeBins::new`: `count+1` boundaries per class, truncating `now`
(the source's `Local::now()`) and stepping back one fixed unit at a time.
`duration_trunc_week now` can panic (modeled by `.error`). -/
def TimeBins.new (retention : Retention) (now : DT) : Except String TimeBins :=
  let thisHour := duration_trunc_hour now
  let rh := (List.range (retention.h + 1)).map fun i : Nat => thisHour - durationHours (i : Int)
  let thisDay := duration_trunc_day now
  let rd := (List.range (retention.d + 1)).map fun i : Nat => thisDay - durationDays (i : Int)
  match duration_trunc_week now with
  | .error e => .error e
  | .ok thisWeek =>
    let rw := (List.range (retention.w + 1)).map fun i : Nat => thisWeek - durationWeeks (i : Int)
    let thisMonth := duration_trunc_month now
    let rm := (List.range (retention.m + 1)).map fun i : Nat =>
      thisMonth - durationWeeks (4 * (i : Int))
    let thisYear := duration_trunc_year now
    let ry := (List.range (retention.y + 1)).map fun i : Nat =>
      thisYear - durationDays (365 * (i : Int))
    .ok ⟨[], rh, [], rd, [], rw, [], rm, [], ry⟩

/-- `TimeBins::store`: truncate the timestamp for every class, then record
the intent against the first class (hour → day → week → month → year)
whose boundary list contains the truncated value.  The week truncation can
panic (modeled by `.error`). -/
def TimeBins.store (tb : TimeBins) (ts : DT) (idx : Nat) : Except String TimeBins :=
  let tsHourly := duration_trunc_hour ts
  let tsDaily := duration_trunc_day ts
  match duration_trunc_week ts with
  | .error e => .error e
  | .ok tsWeekly =>
    let tsMonthly := duration_trunc_month ts
    let tsYearly := duration_trunc_year ts
    if tsHourly ∈ tb.rh then .ok { tb with h := mapInsert tsHourly idx tb.h }
    else if tsDaily ∈ tb.rd then .ok { tb with d := mapInsert tsDaily idx tb.d }
    else if tsWeekly ∈ tb.rw then .ok { tb with w := mapInsert tsWeekly idx tb.w }
    else if tsMonthly ∈ tb.rm then .ok { tb with m := mapInsert tsMonthly idx tb.m }
    else if tsYearly ∈ tb.ry then .ok { tb with y := mapInsert tsYearly idx tb.y }
    else .ok tb

/-- The positions `TimeBins::set_keep` promotes: every intent referenced
in any (class, bucket) slot. -/
def TimeBins.keepIndexes (tb : TimeBins) : List Nat :=
  tb.h.map Prod.snd ++ tb.d.map Prod.snd ++ tb.w.map Prod.snd ++
    tb.m.map Prod.snd ++ tb.y.map Prod.snd

/-- The `for (timestamp, intent) in job_intents { timebins.store(..) }`
loop: stores the candidates in order, propagating a panic. -/
def storeAll (tb : TimeBins) : List (Nat × DT) → Except String TimeBins
  | [] => .ok tb
  | c :: rest =>
    match tb.store c.2 c.1 with
    | .error e => .error e
    | .ok tb' => storeAll tb' rest

/-- Stage 2 of the per-job pass: parse the retention spec; on failure
promote every remaining candidate; on success fill a fresh `TimeBins`
with the remaining candidates (newest first) and apply `set_keep`. -/
def retentionStage (intents : List SIntent) (j : SJob) (now : DT) :
    Except String (List SIntent) :=
  let cands := candidates intents j
  match Retention.fromStr j.preserve.retention with
  | .error _ => .ok (setKeepAt intents (cands.map Prod.fst))
  | .ok r =>
    match TimeBins.new r now with
    | .error e => .error e
    | .ok tb0 =>
      match storeAll tb0 cands with
      | .error e => .error e
      | .ok tb => .ok (setKeepAt intents tb.keepIndexes)

/-- One job's iteration of the scheduling pass. -/
def jobStep (intents : List SIntent) (j : SJob) (now : DT) :
    Except String (List SIntent) :=
  retentionStage (minPreserveStage intents j now) j now

/-- `Intent::delete_to_keep_intents`: the full scheduling pass, jobs
processed in order.  `now` stands for the wall clock read during the pass
(`Local::now()`), taken at a single instant. -/
def delete_to_keep_intents (intents : List SIntent) (jobs : List SJob) (now : DT) :
    Except String (List SIntent) :=
  match jobs with
  | [] => .ok intents
  | j :: rest =>
    match jobStep intents j now with
    | .error e => .error e
    | .ok st => delete_to_keep_intents st rest now

/-! ### Week truncation: claims C7 and C8 -/

/-- Claim C7: week truncation yields the Monday 00:00:00 start of the
ISO-8601 week on the spec's four example dates (and on the source's
remaining `week_edge_cases` test dates) — but not on every timestamp:
2024 has 52 ISO weeks (`isoywd(2024, 53, ..)` is invalid), so for
2024-12-30, a date of calendar year 2024 lying in ISO week 1 of 2025,
the `for i in 1..=53` loop reaches week 53 of 2024 and the `isoywd`
construction panics inside chrono; the code does not return at all
there. -/
theorem c7_week_truncation :
    duration_trunc_week (mkDT 2022 1 1 0 0 0) = .ok (mkDT 2021 12 27 0 0 0) ∧
    duration_trunc_week (mkDT 2022 1 2 0 0 0) = .ok (mkDT 2021 12 27 0 0 0) ∧
    duration_trunc_week (mkDT 2022 1 3 0 0 0) = .ok (mkDT 2022 1 3 0 0 0) ∧
    duration_trunc_week (mkDT 2022 1 4 0 0 0) = .ok (mkDT 2022 1 3 0 0 0) ∧
    duration_trunc_week (mkDT 2022 10 22 0 0 0) = .ok (mkDT 2022 10 17 0 0 0) ∧
    duration_trunc_week (mkDT 2020 12 29 0 0 0) = .ok (mkDT 2020 12 28 0 0 0) ∧
    duration_trunc_week (mkDT 2021 1 2 0 0 0) = .ok (mkDT 2020 12 28 0 0 0) ∧
    isoWeeksInYear 2024 = 52 ∧
    isoywdValid 2024 53 = false ∧
    duration_trunc_week (mkDT 2024 12 30 0 0 0) = .error "invalid isoywd" :=
  ⟨rfl, rfl, rfl, rfl, rfl, rfl, rfl, rfl, rfl, rfl⟩

/-- Claim C8: `duration_trunc_week` does not always return: at
2019-12-30T00:00:00 (2019 has 52 ISO weeks and the date belongs to ISO
week 1 of 2020) the `for i in 1..=53` loop constructs week 53 of 2019
with the panicking `isoywd`, aborting before the week-1-of-next-year
check is reached — a check that, as the third conjunct shows, would have
succeeded with exactly this timestamp's ISO-week Monday (2019-12-30
starts week 1 of 2020), so that branch and the final
`panic!("did not find week")` are dead code. -/
theorem c8_week_panic_reachable :
    isoWeeksInYear 2019 = 52 ∧
    isoywdValid 2019 53 = false ∧
    weekCheck 2020 1 (mkDT 2019 12 30 0 0 0) = some (mkDT 2019 12 30 0 0 0) ∧
    duration_trunc_week (mkDT 2019 12 30 0 0 0) = .error "invalid isoywd" :=
  ⟨rfl, rfl, rfl, rfl⟩

/-! ### TimeBins construction: claim C3 -/

/-- Claim C3: `TimeBins::new` builds, for each class, exactly `count+1`
bucket boundaries, the `i`-th being the class truncation of `now` minus
`i` fixed elapsed units — 1 hour, 1 day, 1 week, 4 weeks, and 365 days
respectively — with no calendar-aware stepping. -/
theorem c3_timebins_construction (r : Retention) (now : DT) (tb : TimeBins)
    (hnew : TimeBins.new r now = .ok tb) :
    (tb.rh.length = r.h + 1 ∧
      ∀ i, i < r.h + 1 → tb.rh[i]? = some (duration_trunc_hour now - (i : Int) * 3600)) ∧
    (tb.rd.length = r.d + 1 ∧
      ∀ i, i < r.d + 1 → tb.rd[i]? = some (duration_trunc_day now - (i : Int) * 86400)) ∧
    (∃ wk, duration_trunc_week now = .ok wk ∧ tb.rw.length = r.w + 1 ∧
      ∀ i, i < r.w + 1 → tb.rw[i]? = some (wk - (i : Int) * 604800)) ∧
    (tb.rm.length = r.m + 1 ∧
      ∀ i, i < r.m + 1 →
        tb.rm[i]? = some (duration_trunc_month now - (i : Int) * (4 * 604800))) ∧
    (tb.ry.length = r.y + 1 ∧
      ∀ i, i < r.y + 1 →
        tb.ry[i]? = some (duration_trunc_year now - (i : Int) * (365 * 86400))) := by
  cases hw : duration_trunc_week now with
  | error e => simp [TimeBins.new, hw] at hnew
  | ok wk =>
    simp only [TimeBins.new, hw] at hnew
    cases hnew
    refine ⟨⟨?_, fun i hi => ?_⟩, ⟨?_, fun i hi => ?_⟩, ⟨wk, rfl, ?_, fun i hi => ?_⟩,
      ⟨?_, fun i hi => ?_⟩, ⟨?_, fun i hi => ?_⟩⟩
    case refine_1 => simp
    case refine_3 => simp
    case refine_5 => simp
    case refine_7 => simp
    case refine_9 => simp
    all_goals
      rw [List.getElem?_map, List.getElem?_range hi]
      simp only [Option.map_some', Option.some.injEq, durationHours,
        durationDays, durationWeeks]
      try push_cast
      try ring

/-- A concrete `TimeBins.new` result used to instantiate C3. -/
def tbC3 : TimeBins :=
  ⟨[], [1641038400, 1641034800], [], [1640995200], [], [1640563200], [],
    [1640995200], [], [1640995200]⟩

theorem c3_witness : tbC3.rh.length = 1 + 1 :=
  (c3_timebins_construction ⟨1, 0, 0, 0, 0⟩ (mkDT 2022 1 1 12 0 0) tbC3 rfl).1.1

/-! ### TimeBins store: claim C2 -/

lemma mapFind_mapInsert (k b : DT) (v : Nat) (m : List (DT × Nat)) :
    mapFind b (mapInsert k v m) = if b = k then some v else mapFind b m := by
  induction m with
  | nil =>
    simp only [mapInsert, mapFind]
    split_ifs <;> first | rfl | cc
  | cons hd tl ih =>
    obtain ⟨k', v'⟩ := hd
    have hcons : ∀ (w : Nat) (rest : List (DT × Nat)),
        mapFind b ((k', w) :: rest) = if k' = b then some w else mapFind b rest :=
      fun _ _ => rfl
    by_cases hk : k' = k
    · have hins : mapInsert k v ((k', v') :: tl) = (k, v) :: tl := by
        simp [mapInsert, hk]
      subst hk
      rw [hins, hcons, hcons]
      split_ifs <;> first | rfl | cc
    · have hins : mapInsert k v ((k', v') :: tl) = (k', v') :: mapInsert k v tl := by
        simp [mapInsert, hk]
      rw [hins, hcons, hcons, ih]
      split_ifs <;> first | rfl | cc

lemma mem_keys_mapInsert {x k : DT} {v : Nat} :
    ∀ {m : List (DT × Nat)},
      x ∈ (mapInsert k v m).map Prod.fst ↔ x = k ∨ x ∈ m.map Prod.fst := by
  intro m
  induction m with
  | nil => simp [mapInsert]
  | cons hd tl ih =>
    obtain ⟨k', v'⟩ := hd
    simp only [mapInsert]
    split_ifs with hk
    · subst hk
      simp only [List.map_cons, List.mem_cons]
      tauto
    · simp only [List.map_cons, List.mem_cons, ih]
      tauto

lemma nodup_keys_mapInsert {k : DT} {v : Nat} :
    ∀ {m : List (DT × Nat)},
      (m.map Prod.fst).Nodup → ((mapInsert k v m).map Prod.fst).Nodup := by
  intro m
  induction m with
  | nil =>
    intro _
    simp [mapInsert]
  | cons hd tl ih =>
    obtain ⟨k', v'⟩ := hd
    intro hnd
    simp only [List.map_cons, List.nodup_cons] at hnd
    simp only [mapInsert]
    split_ifs with hk
    · subst hk
      simp only [List.map_cons, List.nodup_cons]
      exact hnd
    · simp only [List.map_cons, List.nodup_cons]
      refine ⟨fun hmem => ?_, ih hnd.2⟩
      rcases mem_keys_mapInsert.mp hmem with h | h
      · exact hk h
      · exact hnd.1 h

lemma mem_values_mapInsert {x : Nat} {k : DT} {v : Nat} :
    ∀ {m : List (DT × Nat)},
      x ∈ (mapInsert k v m).map Prod.snd → x = v ∨ x ∈ m.map Prod.snd := by
  intro m
  induction m with
  | nil =>
    intro hx
    simpa [mapInsert] using hx
  | cons hd tl ih =>
    obtain ⟨k', v'⟩ := hd
    intro hx
    simp only [mapInsert] at hx
    split_ifs at hx with hk
    · simp only [List.map_cons, List.mem_cons] at hx
      simp only [List.map_cons, List.mem_cons]
      tauto
    · simp only [List.map_cons, List.mem_cons] at hx
      simp only [List.map_cons, List.mem_cons]
      rcases hx with hx | hx
      · tauto
      · rcases ih hx with h | h <;> tauto

/-- Full characterization of one `TimeBins::store` call (shared helper):
boundary lists are untouched; the bucket→intent assignment of each class
changes exactly at the truncated timestamp's bucket, and only when that
class is the first (hour → day → week → month → year) whose boundary list
contains it, overwriting any previous occupant of the bucket; key
uniqueness of every assignment map is preserved. -/
lemma store_spec (tb : TimeBins) (ts : DT) (idx : Nat) (wk : DT)
    (hwk : duration_trunc_week ts = .ok wk) :
    ∃ tb', tb.store ts idx = .ok tb' ∧
      (tb'.rh = tb.rh ∧ tb'.rd = tb.rd ∧ tb'.rw = tb.rw ∧ tb'.rm = tb.rm ∧ tb'.ry = tb.ry) ∧
      (∀ b, mapFind b tb'.h =
        if b = duration_trunc_hour ts ∧ duration_trunc_hour ts ∈ tb.rh then some idx
        else mapFind b tb.h) ∧
      (∀ b, mapFind b tb'.d =
        if b = duration_trunc_day ts ∧ duration_trunc_day ts ∈ tb.rd ∧
            duration_trunc_hour ts ∉ tb.rh then some idx
        else mapFind b tb.d) ∧
      (∀ b, mapFind b tb'.w =
        if b = wk ∧ wk ∈ tb.rw ∧ duration_trunc_hour ts ∉ tb.rh ∧
            duration_trunc_day ts ∉ tb.rd then some idx
        else mapFind b tb.w) ∧
      (∀ b, mapFind b tb'.m =
        if b = duration_trunc_month ts ∧ duration_trunc_month ts ∈ tb.rm ∧
            duration_trunc_hour ts ∉ tb.rh ∧ duration_trunc_day ts ∉ tb.rd ∧
            wk ∉ tb.rw then some idx
        else mapFind b tb.m) ∧
      (∀ b, mapFind b tb'.y =
        if b = duration_trunc_year ts ∧ duration_trunc_year ts ∈ tb.ry ∧
            duration_trunc_hour ts ∉ tb.rh ∧ duration_trunc_day ts ∉ tb.rd ∧
            wk ∉ tb.rw ∧ duration_trunc_month ts ∉ tb.rm then some idx
        else mapFind b tb.y) ∧
      (((tb.h.map Prod.fst).Nodup → (tb'.h.map Prod.fst).Nodup) ∧
       ((tb.d.map Prod.fst).Nodup → (tb'.d.map Prod.fst).Nodup) ∧
       ((tb.w.map Prod.fst).Nodup → (tb'.w.map Prod.fst).Nodup) ∧
       ((tb.m.map Prod.fst).Nodup → (tb'.m.map Prod.fst).Nodup) ∧
       ((tb.y.map Prod.fst).Nodup → (tb'.y.map Prod.fst).Nodup)) := by
  by_cases h1 : duration_trunc_hour ts ∈ tb.rh
  · refine ⟨{ tb with h := mapInsert (duration_trunc_hour ts) idx tb.h },
      by simp [TimeBins.store, hwk, h1], ⟨rfl, rfl, rfl, rfl, rfl⟩, ?_, ?_, ?_, ?_, ?_,
      fun hnd => nodup_keys_mapInsert hnd, id, id, id, id⟩ <;>
      intro b <;> simp [mapFind_mapInsert, h1]
  · by_cases h2 : duration_trunc_day ts ∈ tb.rd
    · refine ⟨{ tb with d := mapInsert (duration_trunc_day ts) idx tb.d },
        by simp [TimeBins.store, hwk, h1, h2], ⟨rfl, rfl, rfl, rfl, rfl⟩, ?_, ?_, ?_, ?_, ?_,
        id, fun hnd => nodup_keys_mapInsert hnd, id, id, id⟩ <;>
        intro b <;> simp [mapFind_mapInsert, h1, h2]
    · by_cases h3 : wk ∈ tb.rw
      · refine ⟨{ tb with w := mapInsert wk idx tb.w },
          by simp [TimeBins.store, hwk, h1, h2, h3], ⟨rfl, rfl, rfl, rfl, rfl⟩,
          ?_, ?_, ?_, ?_, ?_, id, id, fun hnd => nodup_keys_mapInsert hnd, id, id⟩ <;>
          intro b <;> simp [mapFind_mapInsert, h1, h2, h3]
      · by_cases h4 : duration_trunc_month ts ∈ tb.rm
        · refine ⟨{ tb with m := mapInsert (duration_trunc_month ts) idx tb.m },
            by simp [TimeBins.store, hwk, h1, h2, h3, h4], ⟨rfl, rfl, rfl, rfl, rfl⟩,
            ?_, ?_, ?_, ?_, ?_, id, id, id, fun hnd => nodup_keys_mapInsert hnd, id⟩ <;>
            intro b <;> simp [mapFind_mapInsert, h1, h2, h3, h4]
        · by_cases h5 : duration_trunc_year ts ∈ tb.ry
          · refine ⟨{ tb with y := mapInsert (duration_trunc_year ts) idx tb.y },
              by simp [TimeBins.store, hwk, h1, h2, h3, h4, h5], ⟨rfl, rfl, rfl, rfl, rfl⟩,
              ?_, ?_, ?_, ?_, ?_, id, id, id, id, fun hnd => nodup_keys_mapInsert hnd⟩ <;>
              intro b <;> simp [mapFind_mapInsert, h1, h2, h3, h4, h5]
          · refine ⟨tb, by simp [TimeBins.store, hwk, h1, h2, h3, h4, h5],
              ⟨rfl, rfl, rfl, rfl, rfl⟩, ?_, ?_, ?_, ?_, ?_, id, id, id, id, id⟩ <;>
              intro b <;> simp [h1, h2, h3, h4, h5]

/-- Claim C2 (amended): `TimeBins::store` truncates the timestamp for
every class, tests membership in priority order hour → day → week →
month → year, records the intent against the first class whose boundary
set contains the truncated value, keeps at most one intent per
(class, bucket) pair — and on a bucket collision the candidate processed
*last* wins (the `HashMap::insert` overwrites), so with newest-first
input the *oldest* candidate per bucket is the one kept. -/
theorem c2_store_first_class_last_wins (tb : TimeBins) (ts : DT) (idx : Nat) (wk : DT)
    (hwk : duration_trunc_week ts = .ok wk) :
    ∃ tb', tb.store ts idx = .ok tb' ∧
      (tb'.rh = tb.rh ∧ tb'.rd = tb.rd ∧ tb'.rw = tb.rw ∧ tb'.rm = tb.rm ∧ tb'.ry = tb.ry) ∧
      (∀ b, mapFind b tb'.h =
        if b = duration_trunc_hour ts ∧ duration_trunc_hour ts ∈ tb.rh then some idx
        else mapFind b tb.h) ∧
      (∀ b, mapFind b tb'.d =
        if b = duration_trunc_day ts ∧ duration_trunc_day ts ∈ tb.rd ∧
            duration_trunc_hour ts ∉ tb.rh then some idx
        else mapFind b tb.d) ∧
      (∀ b, mapFind b tb'.w =
        if b = wk ∧ wk ∈ tb.rw ∧ duration_trunc_hour ts ∉ tb.rh ∧
            duration_trunc_day ts ∉ tb.rd then some idx
        else mapFind b tb.w) ∧
      (∀ b, mapFind b tb'.m =
        if b = duration_trunc_month ts ∧ duration_trunc_month ts ∈ tb.rm ∧
            duration_trunc_hour ts ∉ tb.rh ∧ duration_trunc_day ts ∉ tb.rd ∧
            wk ∉ tb.rw then some idx
        else mapFind b tb.m) ∧
      (∀ b, mapFind b tb'.y =
        if b = duration_trunc_year ts ∧ duration_trunc_year ts ∈ tb.ry ∧
            duration_trunc_hour ts ∉ tb.rh ∧ duration_trunc_day ts ∉ tb.rd ∧
            wk ∉ tb.rw ∧ duration_trunc_month ts ∉ tb.rm then some idx
        else mapFind b tb.y) ∧
      (((tb.h.map Prod.fst).Nodup → (tb'.h.map Prod.fst).Nodup) ∧
       ((tb.d.map Prod.fst).Nodup → (tb'.d.map Prod.fst).Nodup) ∧
       ((tb.w.map Prod.fst).Nodup → (tb'.w.map Prod.fst).Nodup) ∧
       ((tb.m.map Prod.fst).Nodup → (tb'.m.map Prod.fst).Nodup) ∧
       ((tb.y.map Prod.fst).Nodup → (tb'.y.map Prod.fst).Nodup)) ∧
      (∀ ts2 idx2 wk2 tb2, duration_trunc_week ts2 = .ok wk2 →
        tb'.store ts2 idx2 = .ok tb2 →
        duration_trunc_hour ts2 = duration_trunc_hour ts →
        duration_trunc_hour ts ∈ tb.rh →
        mapFind (duration_trunc_hour ts) tb2.h = some idx2) := by
  obtain ⟨tb', hs, hbounds, hh, hd, hw', hm, hy, hnd⟩ := store_spec tb ts idx wk hwk
  refine ⟨tb', hs, hbounds, hh, hd, hw', hm, hy, hnd, ?_⟩
  intro ts2 idx2 wk2 tb2 hwk2 hs2 heq hmem
  obtain ⟨tb2', hs2', hbounds2, hh2, _⟩ := store_spec tb' ts2 idx2 wk2 hwk2
  rw [hs2] at hs2'
  cases hs2'
  rw [hh2 (duration_trunc_hour ts), if_pos]
  exact ⟨heq.symm, by rw [heq, hbounds.1]; exact hmem⟩

/-- The claim's tie-break, as frozen, is false: with two candidates in
the same live hour bucket and the newer processed first (indices 1 then
2), the bucket ends up holding intent 2 — the one processed last. -/
theorem c2_counterexample :
    (((TimeBins.new ⟨1, 0, 0, 0, 0⟩ (mkDT 2022 1 1 12 30 0)).bind fun tb =>
        tb.store (mkDT 2022 1 1 12 10 0) 1).bind fun tb =>
        tb.store (mkDT 2022 1 1 12 5 0) 2).map
        (fun tb => mapFind (mkDT 2022 1 1 12 0 0) tb.h) = .ok (some 2) ∧
      some 2 ≠ some 1 :=
  ⟨rfl, by decide⟩

theorem c2_witness :
    ∃ tb', TimeBins.store ⟨[], [1641038400], [], [], [], [], [], [], [], []⟩
        (mkDT 2022 1 1 12 10 0) 7 = .ok tb' ∧ mapFind 1641038400 tb'.h = some 7 := by
  obtain ⟨tb', hs, hbounds, hh, -⟩ :=
    c2_store_first_class_last_wins ⟨[], [1641038400], [], [], [], [], [], [], [], []⟩
      (mkDT 2022 1 1 12 10 0) 7 1640563200 rfl
  refine ⟨tb', hs, ?_⟩
  rw [hh 1641038400, if_pos]
  exact ⟨rfl, by decide⟩

/-! ### Grammar: claims C6 and C10 -/

/-- Characters that are neither digits nor regex whitespace — in a
string accepted by the grammar these can only be the unit letters. -/
def letterLike (c : Char) : Bool := !(c.isDigit || regexSpace c)

lemma component_filter (c : Char) (hc : letterLike c = true) (s : List Char) :
    s.filter letterLike =
      (if (component c s).1.isSome then [c] else []) ++
        ((component c s).2.filter letterLike) := by
  by_cases h : s.takeWhile (fun x => x.isDigit) ≠ [] ∧
      (s.dropWhile (fun x => x.isDigit)).head? = some c
  · have hcomp : component c s =
        (some (digitsVal (s.takeWhile (fun x => x.isDigit))),
          (s.dropWhile (fun x => x.isDigit)).tail) := by
      simp [component, h]
    rw [hcomp]
    have hsplit : s.takeWhile (fun x => x.isDigit) ++ s.dropWhile (fun x => x.isDigit) = s :=
      List.takeWhile_append_dropWhile ..
    obtain ⟨hne, hhead⟩ := h
    have hdrop : s.dropWhile (fun x => x.isDigit) =
        c :: (s.dropWhile (fun x => x.isDigit)).tail := by
      cases hd : s.dropWhile (fun x => x.isDigit) with
      | nil => rw [hd] at hhead; simp at hhead
      | cons a t =>
        rw [hd] at hhead
        simp only [List.head?_cons, Option.some.injEq] at hhead
        rw [hhead]
        rfl
    conv_lhs => rw [← hsplit, hdrop]
    rw [List.filter_append]
    have hdigits : (s.takeWhile (fun x => x.isDigit)).filter letterLike = [] := by
      rw [List.filter_eq_nil_iff]
      intro a ha
      have : a.isDigit = true := List.mem_takeWhile_imp ha
      simp [letterLike, this]
    rw [hdigits]
    simp [List.filter_cons, hc]
  · have hcomp : component c s = (none, s) := by
      simp only [component]
      rw [if_neg h]
    rw [hcomp]
    simp

lemma skipWs_filter (s : List Char) :
    s.filter letterLike = (skipWs s).filter letterLike := by
  have hsplit : s.takeWhile (fun x => regexSpace x) ++
      s.dropWhile (fun x => regexSpace x) = s :=
    List.takeWhile_append_dropWhile ..
  conv_lhs => rw [← hsplit]
  rw [List.filter_append]
  have hws : (s.takeWhile (fun x => regexSpace x)).filter letterLike = [] := by
    rw [List.filter_eq_nil_iff]
    intro a ha
    have : regexSpace a = true := List.mem_takeWhile_imp ha
    simp [letterLike, this]
  rw [hws]
  rfl

lemma opt_singleton_sublist (b : Bool) (c : Char) :
    ((if b then [c] else []) : List Char).Sublist [c] := by
  cases b <;> simp

lemma opt_append_nil_sublist (b : Bool) (c : Char) :
    (((if b then [c] else []) ++ ([] : List Char)) : List Char).Sublist [c] := by
  cases b <;> simp

/-- Claim C6: the shared grammar accepts components only in the fixed
order h, d, w, m, y, each optional, separated by optional whitespace
(the regex's `\s`, Unicode `White_Space`, so vertical tab or no-break
space separators are accepted as well); the empty string yields the
all-zero value; the example string parses to
its component values; wrong order, extraneous characters, and integer
overflow fail.  The final conjunct is the order/charset property: in any
accepted string the non-digit, non-whitespace characters are, in order, a
subsequence of h, d, w, m, y. -/
theorem c6_grammar_fixed_order :
    Retention.fromStr "" = .ok Retention.zero ∧
    duration_from_str "" = .ok 0 ∧
    Retention.fromStr "3h2d1w4m5y" = .ok ⟨3, 2, 1, 4, 5⟩ ∧
    Retention.fromStr "3h 2d 1w 4m 5y" = .ok ⟨3, 2, 1, 4, 5⟩ ∧
    Retention.fromStr "3h\x0B2d" = .ok ⟨3, 2, 0, 0, 0⟩ ∧
    Retention.fromStr "3h\u00A02d" = .ok ⟨3, 2, 0, 0, 0⟩ ∧
    Retention.fromStr "3d3h" = .error "DurationParseError" ∧
    duration_from_str "3d3h" = .error "DurationParseError" ∧
    Retention.fromStr "123" = .error "DurationParseError" ∧
    Retention.fromStr "3hx" = .error "DurationParseError" ∧
    Retention.fromStr "18446744073709551616h" = .error "ParseIntError" ∧
    duration_from_str "9223372036854775808h" = .error "ParseIntError" ∧
    ∀ s : List Char, (spanMatch s).isSome = true →
      (s.filter letterLike).Sublist ['h', 'd', 'w', 'm', 'y'] := by
  refine ⟨rfl, rfl, rfl, rfl, rfl, rfl, rfl, rfl, rfl, rfl, rfl, rfl, ?_⟩
  intro s hsome
  simp only [spanMatch] at hsome
  split at hsome
  case isFalse => simp at hsome
  case isTrue hend =>
    rw [component_filter 'h' (by decide) s, skipWs_filter,
      component_filter 'd' (by decide), skipWs_filter,
      component_filter 'w' (by decide), skipWs_filter,
      component_filter 'm' (by decide), skipWs_filter,
      component_filter 'y' (by decide), hend, List.filter_nil]
    apply List.Sublist.append (opt_singleton_sublist _ _)
    apply List.Sublist.append (opt_singleton_sublist _ _)
    apply List.Sublist.append (opt_singleton_sublist _ _)
    apply List.Sublist.append (opt_singleton_sublist _ _)
    exact opt_append_nil_sublist _ _

theorem c6_witness :
    (("3h2d".data).filter letterLike).Sublist ['h', 'd', 'w', 'm', 'y'] :=
  c6_grammar_fixed_order.2.2.2.2.2.2.2.2.2.2.2.2 "3h2d".data rfl

lemma except_bind_ok {α β : Type} (a : α) (f : α → Except String β) :
    (Except.ok a >>= f) = f a := rfl

lemma except_pure {α : Type} (a : α) : (pure a : Except String α) = .ok a := rfl

lemma parseI64_ok (o : Option Nat) (hbound : o.getD 0 < 2 ^ 63) :
    parseI64 o = .ok (o.map Int.ofNat) := by
  cases o with
  | none => rfl
  | some n =>
    simp only [Option.getD_some] at hbound
    simp only [parseI64, Option.map_some']
    rw [if_pos hbound]

lemma except_map_ok {α β : Type} (a : α) (f : α → β) :
    (Except.ok a : Except String α).map f = .ok (f a) := rfl

lemma chronoHours_ok (n : Int) (h0 : 0 ≤ n) (hb : n ≤ 2562047788015) :
    chronoHours n = .ok (n * 3600) := by
  have h1 : i64Mul n 3600 = .ok (n * 3600) := by
    simp only [i64Mul]
    rw [if_pos ⟨by omega, by omega⟩]
  simp only [chronoHours, h1, except_bind_ok, chronoSeconds, chronoMaxSecs]
  rw [if_pos ⟨by omega, by omega⟩]

lemma chronoDays_ok (n : Int) (h0 : 0 ≤ n) (hb : n ≤ 106751991167) :
    chronoDays n = .ok (n * 86400) := by
  have h1 : i64Mul n 86400 = .ok (n * 86400) := by
    simp only [i64Mul]
    rw [if_pos ⟨by omega, by omega⟩]
  simp only [chronoDays, h1, except_bind_ok, chronoSeconds, chronoMaxSecs]
  rw [if_pos ⟨by omega, by omega⟩]

lemma chronoWeeks_ok (n : Int) (h0 : 0 ≤ n) (hb : n ≤ 15250284452) :
    chronoWeeks n = .ok (n * 604800) := by
  have h1 : i64Mul n 604800 = .ok (n * 604800) := by
    simp only [i64Mul]
    rw [if_pos ⟨by omega, by omega⟩]
  simp only [chronoWeeks, h1, except_bind_ok, chronoSeconds, chronoMaxSecs]
  rw [if_pos ⟨by omega, by omega⟩]

lemma monthsComp_ok (n : Int) (h0 : 0 ≤ n) (hb : n ≤ 3812571113) :
    (i64Mul 4 n >>= chronoWeeks) = .ok (4 * n * 604800) := by
  have h1 : i64Mul 4 n = .ok (4 * n) := by
    simp only [i64Mul]
    rw [if_pos ⟨by omega, by omega⟩]
  rw [h1, except_bind_ok, chronoWeeks_ok (4 * n) (by omega) (by omega)]

lemma yearsComp_ok (n : Int) (h0 : 0 ≤ n) (hb : n ≤ 292471208) :
    (i64Mul 365 n >>= chronoDays) = .ok (365 * n * 86400) := by
  have h1 : i64Mul 365 n = .ok (365 * n) := by
    simp only [i64Mul]
    rw [if_pos ⟨by omega, by omega⟩]
  rw [h1, except_bind_ok, chronoDays_ok (365 * n) (by omega) (by omega)]

/-- Claim C10: on any successfully matched duration string whose
components are within the ranges chrono's `Duration` constructors accept
without panicking (and whose `4·m` and `365·y` products therefore stay
within `i64`), the parsed elapsed duration is exactly h hours + d days +
w weeks + (4·m) weeks + (365·y) days — months are 4 weeks and years are
365 days, with no calendar-aware adjustment.  Each bound is the largest
value the corresponding constructor accepts. -/
theorem c10_duration_value (s : String) (caps : RegexCaps)
    (hspan : spanMatch s.data = some caps)
    (hh : caps.h.getD 0 ≤ 2562047788015) (hd : caps.d.getD 0 ≤ 106751991167)
    (hw : caps.w.getD 0 ≤ 15250284452) (hm : caps.m.getD 0 ≤ 3812571113)
    (hy : caps.y.getD 0 ≤ 292471208) :
    duration_from_str s = .ok
      ((caps.h.getD 0 : Int) * 3600 + (caps.d.getD 0 : Int) * 86400 +
        (caps.w.getD 0 : Int) * 604800 + 4 * (caps.m.getD 0 : Int) * 604800 +
        365 * (caps.y.getD 0 : Int) * 86400) := by
  obtain ⟨o1, o2, o3, o4, o5⟩ := caps
  simp only [duration_from_str, hspan]
  rw [parseI64_ok o1 (lt_of_le_of_lt hh (by norm_num)),
    parseI64_ok o2 (lt_of_le_of_lt hd (by norm_num)),
    parseI64_ok o3 (lt_of_le_of_lt hw (by norm_num)),
    parseI64_ok o4 (lt_of_le_of_lt hm (by norm_num)),
    parseI64_ok o5 (lt_of_le_of_lt hy (by norm_num))]
  rcases o1 with _ | n1 <;> rcases o2 with _ | n2 <;> rcases o3 with _ | n3 <;>
    rcases o4 with _ | n4 <;> rcases o5 with _ | n5 <;>
    · simp only [Option.getD_none, Option.getD_some] at hh hd hw hm hy
      simp only [Option.map_none', Option.map_some', Option.getD_none, Option.getD_some,
        except_bind_ok, except_pure, Int.ofNat_eq_natCast]
      try rw [chronoHours_ok _ (Int.natCast_nonneg _) (by exact_mod_cast hh)]
      try simp only [except_map_ok, except_pure, except_bind_ok]
      try rw [chronoDays_ok _ (Int.natCast_nonneg _) (by exact_mod_cast hd)]
      try simp only [except_map_ok, except_pure, except_bind_ok]
      try rw [chronoWeeks_ok _ (Int.natCast_nonneg _) (by exact_mod_cast hw)]
      try simp only [except_map_ok, except_pure, except_bind_ok]
      try rw [monthsComp_ok _ (Int.natCast_nonneg _) (by exact_mod_cast hm)]
      try simp only [except_map_ok, except_pure, except_bind_ok]
      try rw [yearsComp_ok _ (Int.natCast_nonneg _) (by exact_mod_cast hy)]
      try simp only [except_map_ok, except_pure, except_bind_ok, Except.ok.injEq]
      try push_cast
      try ring

theorem c10_witness :
    duration_from_str "1h2d3w4m5y" = .ok
      ((1 : Int) * 3600 + (2 : Int) * 86400 + (3 : Int) * 604800 +
        4 * (4 : Int) * 604800 + 365 * (5 : Int) * 86400) :=
  c10_duration_value "1h2d3w4m5y" ⟨some 1, some 2, some 3, some 4, some 5⟩ rfl
    (by norm_num) (by norm_num) (by norm_num) (by norm_num) (by norm_num)

/-! ### Scheduler infrastructure: claims C1, C4, C5 -/

/-- How one intent cell may change across (part of) a scheduling pass:
either untouched, or promoted from Delete to Keep. -/
def KindEvolves (a b : SIntent) : Prop :=
  b = a ∨ (a.kind = .Delete ∧ b = { a with kind := .Keep })

lemma kindEvolves_refl (a : SIntent) : KindEvolves a a := Or.inl rfl

lemma kindEvolves_trans {a b c : SIntent} (h1 : KindEvolves a b) (h2 : KindEvolves b c) :
    KindEvolves a c := by
  rcases h1 with h1 | ⟨hk1, h1⟩
  · rwa [h1] at h2
  · rcases h2 with h2 | ⟨hk2, h2⟩
    · rw [h2, h1]
      exact Or.inr ⟨hk1, rfl⟩
    · subst h1
      simp at hk2

lemma kindEvolves_fields {a b : SIntent} (h : KindEvolves a b) :
    b.job = a.job ∧ b.ts = a.ts := by
  rcases h with h | ⟨_, h⟩ <;> subst h <;> exact ⟨rfl, rfl⟩

lemma kindEvolves_of_ne_delete {a b : SIntent} (ha : a.kind ≠ .Delete)
    (h : KindEvolves a b) : b = a := by
  rcases h with h | ⟨hk, _⟩
  · exact h
  · exact absurd hk ha

/-- Pointwise `KindEvolves` between two intent lists of equal length. -/
def Evolves (l1 l2 : List SIntent) : Prop :=
  l1.length = l2.length ∧
    ∀ (i : Nat) (x y : SIntent), l1[i]? = some x → l2[i]? = some y → KindEvolves x y

lemma getElem?_lt_length {l : List SIntent} {i : Nat} {x : SIntent}
    (hx : l[i]? = some x) : i < l.length := by
  by_contra hge
  rw [List.getElem?_eq_none (by omega)] at hx
  cases hx

lemma evolves_refl (l : List SIntent) : Evolves l l := by
  refine ⟨rfl, fun i x y hx hy => ?_⟩
  rw [hx] at hy
  cases hy
  exact kindEvolves_refl x

lemma evolves_trans {l1 l2 l3 : List SIntent} (h1 : Evolves l1 l2) (h2 : Evolves l2 l3) :
    Evolves l1 l3 := by
  refine ⟨h1.1.trans h2.1, fun i x z hx hz => ?_⟩
  have hlt : i < l2.length := h1.1 ▸ getElem?_lt_length hx
  cases hmid : l2[i]? with
  | none => rw [List.getElem?_eq_getElem hlt] at hmid; cases hmid
  | some y => exact kindEvolves_trans (h1.2 i x y hx hmid) (h2.2 i y z hmid hz)

lemma setKeepAux_length (keeps : List Nat) : ∀ (k : Nat) (l : List SIntent),
    (setKeepAux keeps k l).length = l.length := by
  intro k l
  induction l generalizing k with
  | nil => rfl
  | cons x xs ih => simp [setKeepAux, ih]

lemma setKeepAux_getElem? (keeps : List Nat) : ∀ (k : Nat) (l : List SIntent) (i : Nat),
    (setKeepAux keeps k l)[i]? =
      (l[i]?).map fun x => if (k + i) ∈ keeps then { x with kind := .Keep } else x := by
  intro k l
  induction l generalizing k with
  | nil => intro i; simp [setKeepAux]
  | cons x xs ih =>
    intro i
    cases i with
    | zero => simp [setKeepAux]
    | succ n =>
      simp only [setKeepAux, List.getElem?_cons_succ, ih (k + 1) n]
      have : k + (n + 1) = k + 1 + n := by omega
      rw [this]

lemma setKeepAt_getElem? (intents : List SIntent) (keeps : List Nat) (i : Nat) :
    (setKeepAt intents keeps)[i]? =
      (intents[i]?).map fun x => if i ∈ keeps then { x with kind := .Keep } else x := by
  have := setKeepAux_getElem? keeps 0 intents i
  simpa [setKeepAt] using this

lemma setKeepAt_length (intents : List SIntent) (keeps : List Nat) :
    (setKeepAt intents keeps).length = intents.length :=
  setKeepAux_length keeps 0 intents

lemma candAux_mem (jid : Nat) : ∀ (l : List SIntent) (k i : Nat) (t : DT),
    (i, t) ∈ candAux jid k l ↔
      ∃ o, i = k + o ∧ ∃ x, l[o]? = some x ∧ x.kind = .Delete ∧ x.job = jid ∧ x.ts = t := by
  intro l
  induction l with
  | nil => intro k i t; simp [candAux]
  | cons y ys ih =>
    intro k i t
    constructor
    · intro hmem
      by_cases hc : y.kind = .Delete ∧ y.job = jid
      · rw [candAux, if_pos hc] at hmem
        rcases List.mem_cons.mp hmem with h | h
        · cases h
          exact ⟨0, by omega, y, by simp, hc.1, hc.2, rfl⟩
        · obtain ⟨o, ho, x, hx⟩ := (ih (k + 1) i t).mp h
          exact ⟨o + 1, by omega, x, by simpa using hx⟩
      · rw [candAux, if_neg hc] at hmem
        obtain ⟨o, ho, x, hx⟩ := (ih (k + 1) i t).mp hmem
        exact ⟨o + 1, by omega, x, by simpa using hx⟩
    · rintro ⟨o, ho, x, hx, hkind, hjob, hts⟩
      cases o with
      | zero =>
        simp only [List.getElem?_cons_zero, Option.some.injEq] at hx
        subst hx
        rw [candAux, if_pos ⟨hkind, hjob⟩]
        subst hts
        subst ho
        simp
      | succ n =>
        simp only [List.getElem?_cons_succ] at hx
        have hmem : (i, t) ∈ candAux jid (k + 1) ys :=
          (ih (k + 1) i t).mpr ⟨n, by omega, x, hx, hkind, hjob, hts⟩
        by_cases hc : y.kind = .Delete ∧ y.job = jid
        · rw [candAux, if_pos hc]
          exact List.mem_cons_of_mem _ hmem
        · rwa [candAux, if_neg hc]

lemma insertDesc_perm (x : Nat × DT) : ∀ l : List (Nat × DT),
    (insertDesc x l).Perm (x :: l) := by
  intro l
  induction l with
  | nil => simp [insertDesc]
  | cons y ys ih =>
    rw [insertDesc]
    split_ifs
    · exact List.Perm.refl _
    · exact (List.Perm.cons y ih).trans (List.Perm.swap x y ys)

lemma sortDesc_perm : ∀ l : List (Nat × DT), (sortDesc l).Perm l := by
  intro l
  induction l with
  | nil => exact List.Perm.refl _
  | cons x xs ih =>
    rw [sortDesc]
    exact (insertDesc_perm x (sortDesc xs)).trans (List.Perm.cons x ih)

lemma mem_sortDesc {p : Nat × DT} {l : List (Nat × DT)} :
    p ∈ sortDesc l ↔ p ∈ l :=
  (sortDesc_perm l).mem_iff

lemma insertDesc_sorted {x : Nat × DT} : ∀ {l : List (Nat × DT)},
    l.Pairwise (fun a b => b.2 ≤ a.2) →
      (insertDesc x l).Pairwise (fun a b => b.2 ≤ a.2) := by
  intro l
  induction l with
  | nil => intro _; simp [insertDesc]
  | cons y ys ih =>
    intro hp
    rw [List.pairwise_cons] at hp
    rw [insertDesc]
    split_ifs with hgt
    · rw [List.pairwise_cons]
      refine ⟨fun b hb => ?_, List.pairwise_cons.mpr hp⟩
      rcases List.mem_cons.mp hb with h | h
      · subst h
        exact le_of_lt hgt
      · exact (hp.1 b h).trans (le_of_lt hgt)
    · rw [List.pairwise_cons]
      refine ⟨fun b hb => ?_, ih hp.2⟩
      rcases List.mem_cons.mp ((insertDesc_perm x ys).mem_iff.mp hb) with h | h
      · subst h
        exact le_of_not_lt hgt
      · exact hp.1 b h

lemma sortDesc_sorted : ∀ l : List (Nat × DT),
    (sortDesc l).Pairwise (fun a b => b.2 ≤ a.2) := by
  intro l
  induction l with
  | nil => simp [sortDesc]
  | cons x xs ih => exact insertDesc_sorted ih

lemma candidates_sound {intents : List SIntent} {j : SJob} {i : Nat} {t : DT}
    (h : (i, t) ∈ candidates intents j) :
    ∃ x, intents[i]? = some x ∧ x.kind = .Delete ∧ x.job = j.id ∧ x.ts = t := by
  obtain ⟨o, ho, x, hx, hk, hj, ht⟩ :=
    (candAux_mem j.id intents 0 i t).mp (mem_sortDesc.mp h)
  have : o = i := by omega
  subst this
  exact ⟨x, hx, hk, hj, ht⟩

lemma candidates_complete {intents : List SIntent} {j : SJob} {i : Nat} {x : SIntent}
    (hx : intents[i]? = some x) (hk : x.kind = .Delete) (hj : x.job = j.id) :
    (i, x.ts) ∈ candidates intents j :=
  mem_sortDesc.mpr ((candAux_mem j.id intents 0 i x.ts).mpr ⟨i, by omega, x, hx, hk, hj, rfl⟩)

lemma minPreserveKeeps_subset {cands : List (Nat × DT)} {j : SJob} {now : DT} {i : Nat}
    (h : i ∈ minPreserveKeeps cands j now) : i ∈ cands.map Prod.fst := by
  cases hmin : j.preserve.min with
  | Variant v =>
    cases v
    · simp only [minPreserveKeeps, hmin] at h
      exact h
    · simp only [minPreserveKeeps, hmin] at h
      exact List.map_subset Prod.fst (List.take_subset 1 cands) h
  | Timespan s =>
    simp only [minPreserveKeeps, hmin] at h
    cases hd : duration_from_str s with
    | error e =>
      rw [hd] at h
      exact h
    | ok d =>
      rw [hd] at h
      exact List.map_subset Prod.fst (List.takeWhile_sublist _).subset h
  | Count n =>
    simp only [minPreserveKeeps, hmin] at h
    exact List.map_subset Prod.fst (List.take_subset n cands) h

lemma setKeepAt_evolves (intents : List SIntent) (keeps : List Nat)
    (hk : ∀ i ∈ keeps, ∀ x : SIntent, intents[i]? = some x → x.kind = .Delete) :
    Evolves intents (setKeepAt intents keeps) := by
  refine ⟨(setKeepAt_length intents keeps).symm, fun i x y hx hy => ?_⟩
  rw [setKeepAt_getElem?, hx] at hy
  simp only [Option.map_some', Option.some.injEq] at hy
  by_cases hi : i ∈ keeps
  · rw [if_pos hi] at hy
    exact Or.inr ⟨hk i hi x hx, hy.symm⟩
  · rw [if_neg hi] at hy
    exact Or.inl hy.symm

lemma keeps_are_delete {intents : List SIntent} {j : SJob} {now : DT} :
    ∀ i ∈ minPreserveKeeps (candidates intents j) j now,
      ∀ x : SIntent, intents[i]? = some x → x.kind = .Delete := by
  intro i hi x hx
  obtain ⟨⟨i', t⟩, hmem, hfst⟩ := List.mem_map.mp (minPreserveKeeps_subset hi)
  cases hfst
  obtain ⟨x', hx', hk', _, _⟩ := candidates_sound hmem
  rw [hx] at hx'
  cases hx'
  exact hk'

lemma minPreserveStage_evolves (intents : List SIntent) (j : SJob) (now : DT) :
    Evolves intents (minPreserveStage intents j now) :=
  setKeepAt_evolves _ _ keeps_are_delete

lemma keepIndexes_new {r : Retention} {now : DT} {tb0 : TimeBins}
    (h : TimeBins.new r now = .ok tb0) : tb0.keepIndexes = [] := by
  cases hw : duration_trunc_week now with
  | error e => simp [TimeBins.new, hw] at h
  | ok wk =>
    simp only [TimeBins.new, hw] at h
    cases h
    rfl

/-- The six possible outcomes of a non-panicking `TimeBins::store` call. -/
lemma store_shape (tb : TimeBins) (ts : DT) (idx : Nat) (wk : DT)
    (hwk : duration_trunc_week ts = .ok wk) :
    tb.store ts idx = .ok { tb with h := mapInsert (duration_trunc_hour ts) idx tb.h } ∨
    tb.store ts idx = .ok { tb with d := mapInsert (duration_trunc_day ts) idx tb.d } ∨
    tb.store ts idx = .ok { tb with w := mapInsert wk idx tb.w } ∨
    tb.store ts idx = .ok { tb with m := mapInsert (duration_trunc_month ts) idx tb.m } ∨
    tb.store ts idx = .ok { tb with y := mapInsert (duration_trunc_year ts) idx tb.y } ∨
    tb.store ts idx = .ok tb := by
  by_cases h1 : duration_trunc_hour ts ∈ tb.rh
  · exact Or.inl (by simp [TimeBins.store, hwk, h1])
  · by_cases h2 : duration_trunc_day ts ∈ tb.rd
    · exact Or.inr (Or.inl (by simp [TimeBins.store, hwk, h1, h2]))
    · by_cases h3 : wk ∈ tb.rw
      · exact Or.inr (Or.inr (Or.inl (by simp [TimeBins.store, hwk, h1, h2, h3])))
      · by_cases h4 : duration_trunc_month ts ∈ tb.rm
        · exact Or.inr (Or.inr (Or.inr (Or.inl
            (by simp [TimeBins.store, hwk, h1, h2, h3, h4]))))
        · by_cases h5 : duration_trunc_year ts ∈ tb.ry
          · exact Or.inr (Or.inr (Or.inr (Or.inr (Or.inl
              (by simp [TimeBins.store, hwk, h1, h2, h3, h4, h5])))))
          · exact Or.inr (Or.inr (Or.inr (Or.inr (Or.inr
              (by simp [TimeBins.store, hwk, h1, h2, h3, h4, h5])))))

lemma store_keepIndexes {tb : TimeBins} {ts : DT} {idx : Nat} {tb' : TimeBins}
    (hs : tb.store ts idx = .ok tb') :
    ∀ x ∈ tb'.keepIndexes, x ∈ tb.keepIndexes ∨ x = idx := by
  cases hw : duration_trunc_week ts with
  | error e => simp [TimeBins.store, hw] at hs
  | ok wk =>
    rcases store_shape tb ts idx wk hw with h | h | h | h | h | h <;> rw [h] at hs <;>
      cases hs <;>
      · intro x hx
        simp only [TimeBins.keepIndexes, List.mem_append] at hx ⊢
        rcases hx with ((((hx | hx) | hx) | hx) | hx) <;>
          first
          | (rcases mem_values_mapInsert hx with hmv | hmv <;> tauto)
          | tauto

lemma storeAll_keepIndexes {tb' : TimeBins} :
    ∀ (cands : List (Nat × DT)) (tb : TimeBins), storeAll tb cands = .ok tb' →
      ∀ x ∈ tb'.keepIndexes, x ∈ tb.keepIndexes ∨ x ∈ cands.map Prod.fst := by
  intro cands
  induction cands with
  | nil =>
    intro tb hs x hx
    cases hs
    exact Or.inl hx
  | cons c rest ih =>
    intro tb hs x hx
    simp only [storeAll] at hs
    cases hst : tb.store c.2 c.1 with
    | error e => rw [hst] at hs; cases hs
    | ok tbm =>
      rw [hst] at hs
      rcases ih tbm hs x hx with h | h
      · rcases store_keepIndexes hst x h with h' | h'
        · exact Or.inl h'
        · exact Or.inr (by simp [h'])
      · exact Or.inr (by simp [h])

lemma retentionStage_evolves {intents : List SIntent} {j : SJob} {now : DT}
    {out : List SIntent} (hout : retentionStage intents j now = .ok out) :
    Evolves intents out := by
  simp only [retentionStage] at hout
  cases hr : Retention.fromStr j.preserve.retention with
  | error e =>
    simp only [hr] at hout
    cases hout
    refine setKeepAt_evolves _ _ ?_
    intro i hi x hx
    obtain ⟨⟨i', t⟩, hmem, hfst⟩ := List.mem_map.mp hi
    cases hfst
    obtain ⟨x', hx', hk', _, _⟩ := candidates_sound hmem
    rw [hx] at hx'
    cases hx'
    exact hk'
  | ok r =>
    simp only [hr] at hout
    cases hnew : TimeBins.new r now with
    | error e => simp only [hnew] at hout; cases hout
    | ok tb0 =>
      simp only [hnew] at hout
      cases hsa : storeAll tb0 (candidates intents j) with
      | error e => simp only [hsa] at hout; cases hout
      | ok tb =>
        simp only [hsa] at hout
        cases hout
        refine setKeepAt_evolves _ _ ?_
        intro i hi x hx
        rcases storeAll_keepIndexes _ tb0 hsa i hi with h | h
        · rw [keepIndexes_new hnew] at h
          cases h
        · obtain ⟨⟨i', t⟩, hmem, hfst⟩ := List.mem_map.mp h
          cases hfst
          obtain ⟨x', hx', hk', _, _⟩ := candidates_sound hmem
          rw [hx] at hx'
          cases hx'
          exact hk'

lemma jobStep_evolves {intents : List SIntent} {j : SJob} {now : DT} {out : List SIntent}
    (hs : jobStep intents j now = .ok out) : Evolves intents out :=
  evolves_trans (minPreserveStage_evolves intents j now) (retentionStage_evolves hs)

lemma pass_evolves {now : DT} :
    ∀ (jobs : List SJob) (intents res : List SIntent),
      delete_to_keep_intents intents jobs now = .ok res → Evolves intents res := by
  intro jobs
  induction jobs with
  | nil =>
    intro intents res hrun
    cases hrun
    exact evolves_refl _
  | cons j rest ih =>
    intro intents res hrun
    simp only [delete_to_keep_intents] at hrun
    cases hstep : jobStep intents j now with
    | error e => rw [hstep] at hrun; cases hrun
    | ok st =>
      rw [hstep] at hrun
      exact evolves_trans (jobStep_evolves hstep) (ih st res hrun)

/-- Claim C1: over one `delete_to_keep_intents` pass, every intent's kind
either stays unchanged or changes from Delete to Keep — never the
reverse, and Create intents are never modified (all fields of untouched
intents are preserved verbatim). -/
theorem c1_kind_transitions (intents : List SIntent) (jobs : List SJob) (now : DT)
    (res : List SIntent) (hrun : delete_to_keep_intents intents jobs now = .ok res) :
    intents.length = res.length ∧
    ∀ (i : Nat) (x y : SIntent), intents[i]? = some x → res[i]? = some y →
      y = x ∨ (x.kind = .Delete ∧ y = { x with kind := .Keep }) :=
  pass_evolves jobs intents res hrun

theorem c1_witness :
    (⟨.Keep, 0, mkDT 2022 1 1 12 0 0⟩ : SIntent) = ⟨.Delete, 0, mkDT 2022 1 1 12 0 0⟩ ∨
    ((⟨.Delete, 0, mkDT 2022 1 1 12 0 0⟩ : SIntent).kind = .Delete ∧
      (⟨.Keep, 0, mkDT 2022 1 1 12 0 0⟩ : SIntent) =
        { (⟨.Delete, 0, mkDT 2022 1 1 12 0 0⟩ : SIntent) with kind := .Keep }) :=
  (c1_kind_transitions [⟨.Delete, 0, mkDT 2022 1 1 12 0 0⟩]
    [⟨0, ⟨"", .Variant .All⟩⟩] (mkDT 2022 1 1 12 0 0)
    [⟨.Keep, 0, mkDT 2022 1 1 12 0 0⟩] rfl).2 0 _ _ rfl rfl

lemma cands_fst_spec {intents : List SIntent} {j : SJob} {i : Nat}
    (hi : i ∈ (candidates intents j).map Prod.fst)
    {x : SIntent} (hx : intents[i]? = some x) : x.kind = .Delete ∧ x.job = j.id := by
  obtain ⟨⟨i', t⟩, hmem, hfst⟩ := List.mem_map.mp hi
  cases hfst
  obtain ⟨x', hx', hk', hj', _⟩ := candidates_sound hmem
  rw [hx] at hx'
  cases hx'
  exact ⟨hk', hj'⟩

/-- Positions whose intent was Delete before and Keep after a stage. -/
def promotedIdx (intents out : List SIntent) : List Nat :=
  (List.range intents.length).filter fun i =>
    decide ((intents[i]?.map SIntent.kind) = some .Delete ∧
      (out[i]?.map SIntent.kind) = some .Keep)

lemma candAux_fst_nodup (jid : Nat) : ∀ (l : List SIntent) (k : Nat),
    ((candAux jid k l).map Prod.fst).Nodup := by
  intro l
  induction l with
  | nil => intro k; simp [candAux]
  | cons x xs ih =>
    intro k
    rw [candAux]
    split_ifs with hc
    · simp only [List.map_cons, List.nodup_cons]
      refine ⟨fun hmem => ?_, ih (k + 1)⟩
      obtain ⟨⟨i', t⟩, hmem', hfst⟩ := List.mem_map.mp hmem
      obtain ⟨o, ho, -⟩ := (candAux_mem jid xs (k + 1) i' t).mp hmem'
      omega
    · exact ih (k + 1)

lemma candidates_fst_nodup (intents : List SIntent) (j : SJob) :
    ((candidates intents j).map Prod.fst).Nodup :=
  (((sortDesc_perm (candAux j.id 0 intents)).map Prod.fst).nodup_iff).mpr
    (candAux_fst_nodup j.id intents 0)

lemma candidates_sorted (intents : List SIntent) (j : SJob) :
    (candidates intents j).Pairwise (fun a b => b.2 ≤ a.2) :=
  sortDesc_sorted _

lemma candidates_ts {intents : List SIntent} {j : SJob} {i : Nat} {t : DT} {x : SIntent}
    (hmem : (i, t) ∈ candidates intents j) (hx : intents[i]? = some x) : t = x.ts := by
  obtain ⟨x', hx', _, _, ht⟩ := candidates_sound hmem
  rw [hx] at hx'
  cases hx'
  exact ht.symm

lemma keeps_delete_exists {intents : List SIntent} {j : SJob} {now : DT} {i : Nat}
    (hi : i ∈ minPreserveKeeps (candidates intents j) j now) :
    ∃ x, intents[i]? = some x ∧ x.kind = .Delete := by
  obtain ⟨⟨i', t⟩, hmem, hfst⟩ := List.mem_map.mp (minPreserveKeeps_subset hi)
  cases hfst
  obtain ⟨x, hx, hk, -, -⟩ := candidates_sound hmem
  exact ⟨x, hx, hk⟩

lemma promotedIdx_eq_filter (intents : List SIntent) (keeps : List Nat)
    (hdel : ∀ i ∈ keeps, ∀ x : SIntent, intents[i]? = some x → x.kind = .Delete) :
    promotedIdx intents (setKeepAt intents keeps) =
      (List.range intents.length).filter fun i => decide (i ∈ keeps) := by
  unfold promotedIdx
  apply List.filter_congr
  intro i hi
  have hlt : i < intents.length := List.mem_range.mp hi
  have hx : intents[i]? = some intents[i] := List.getElem?_eq_getElem hlt
  rw [setKeepAt_getElem?, hx]
  by_cases hk : i ∈ keeps
  · simp [hk, hdel i hk _ hx]
  · rcases hcase : intents[i].kind <;> simp [hcase, hk]

lemma length_filter_mem {keeps : List Nat} (hnd : keeps.Nodup) {n : Nat}
    (hlt : ∀ i ∈ keeps, i < n) :
    ((List.range n).filter fun i => decide (i ∈ keeps)).length = keeps.length := by
  have hA : ((List.range n).filter fun i => decide (i ∈ keeps)).Nodup :=
    List.Nodup.filter _ (List.nodup_range n)
  have hsub1 : ((List.range n).filter fun i => decide (i ∈ keeps)) ⊆ keeps := by
    intro i hiA
    have := (List.mem_filter.mp hiA).2
    simpa using this
  have hsub2 : keeps ⊆ ((List.range n).filter fun i => decide (i ∈ keeps)) := by
    intro i hik
    exact List.mem_filter.mpr ⟨List.mem_range.mpr (hlt i hik), by simpa⟩
  exact le_antisymm ((hA.subperm hsub1).length_le) ((hnd.subperm hsub2).length_le)

lemma promotedIdx_length_setKeep (intents : List SIntent) (keeps : List Nat)
    (hnd : keeps.Nodup)
    (hdc : ∀ i ∈ keeps, ∃ x, intents[i]? = some x ∧ x.kind = .Delete) :
    (promotedIdx intents (setKeepAt intents keeps)).length = keeps.length := by
  rw [promotedIdx_eq_filter intents keeps
    (fun i hik x hx => by obtain ⟨x', hx', hk⟩ := hdc i hik; rw [hx] at hx'; cases hx'; exact hk)]
  exact length_filter_mem hnd fun i hik => by
    obtain ⟨x, hx, -⟩ := hdc i hik
    exact getElem?_lt_length hx

lemma take_dominates {l : List (Nat × DT)} (hs : l.Pairwise (fun a b => b.2 ≤ a.2))
    (n : Nat) : ∀ p ∈ l.take n, ∀ q ∈ l.drop n, q.2 ≤ p.2 := by
  have hs' : (l.take n ++ l.drop n).Pairwise (fun a b => b.2 ≤ a.2) := by
    rwa [List.take_append_drop]
  exact fun p hp q hq => (List.pairwise_append.mp hs').2.2 p hp q hq

lemma mem_takeWhile_of_sorted {cut : DT} : ∀ {l : List (Nat × DT)},
    l.Pairwise (fun a b => b.2 ≤ a.2) → ∀ p ∈ l, cut < p.2 →
      p ∈ l.takeWhile fun c => decide (cut < c.2) := by
  intro l
  induction l with
  | nil => intro _ p hp; cases hp
  | cons a t ih =>
    intro hs p hp hcut
    rw [List.pairwise_cons] at hs
    rcases List.mem_cons.mp hp with hpa | hpt
    · subst hpa
      rw [List.takeWhile_cons, if_pos (by simpa using hcut)]
      exact List.mem_cons_self _ _
    · have hat : p.2 ≤ a.2 := hs.1 p hpt
      rw [List.takeWhile_cons,
        if_pos (by simp only [decide_eq_true_eq]; exact lt_of_lt_of_le hcut hat)]
      exact List.mem_cons_of_mem _ (ih hs.2 p hpt hcut)

lemma minPreserveStage_getElem? (intents : List SIntent) (j : SJob) (now : DT)
    {i : Nat} {x : SIntent} (hx : intents[i]? = some x) :
    (minPreserveStage intents j now)[i]? =
      some (if i ∈ minPreserveKeeps (candidates intents j) j now
        then { x with kind := .Keep } else x) := by
  simp only [minPreserveStage, setKeepAt_getElem?, hx, Option.map_some']

lemma take_keeps_dominates (intents : List SIntent) (j : SJob) (now : DT) (n : Nat)
    (hkeq : minPreserveKeeps (candidates intents j) j now =
      ((candidates intents j).take n).map Prod.fst) :
    ∀ (i k : Nat) (x y : SIntent), intents[i]? = some x → intents[k]? = some y →
      x.kind = .Delete → x.job = j.id → y.kind = .Delete → y.job = j.id →
      (∀ z, (minPreserveStage intents j now)[i]? = some z → z.kind = .Keep) →
      (∀ z, (minPreserveStage intents j now)[k]? = some z → z.kind = .Delete) →
      y.ts ≤ x.ts := by
  intro i k x y hx hy hxk hxj hyk hyj hiK hkD
  have hvi := minPreserveStage_getElem? intents j now hx
  have hvk := minPreserveStage_getElem? intents j now hy
  have hik : i ∈ minPreserveKeeps (candidates intents j) j now := by
    by_contra hni
    rw [if_neg hni] at hvi
    have := hiK x hvi
    rw [hxk] at this
    cases this
  have hkk : k ∉ minPreserveKeeps (candidates intents j) j now := by
    intro hkin
    rw [if_pos hkin] at hvk
    have := hkD _ hvk
    simp at this
  rw [hkeq] at hik hkk
  obtain ⟨⟨i', t⟩, hmem, hfst⟩ := List.mem_map.mp hik
  cases hfst
  have htx : t = x.ts := candidates_ts (List.take_subset n _ hmem) hx
  subst htx
  have hkc : (k, y.ts) ∈ candidates intents j := candidates_complete hy hyk hyj
  have hknotake : (k, y.ts) ∉ (candidates intents j).take n := fun hmemk =>
    hkk (List.mem_map.mpr ⟨(k, y.ts), hmemk, rfl⟩)
  have hsplit : (k, y.ts) ∈ (candidates intents j).take n ++ (candidates intents j).drop n := by
    rw [List.take_append_drop]
    exact hkc
  have hdropk : (k, y.ts) ∈ (candidates intents j).drop n := by
    rcases List.mem_append.mp hsplit with h | h
    · exact absurd h hknotake
    · exact h
  exact take_dominates (candidates_sorted intents j) n _ hmem _ hdropk

/-- Claim C5: the min-preserve stage touches only the job's Delete
candidates; All promotes every candidate; Count(n) promotes exactly
`min n #candidates` of them and Latest exactly `min 1 #candidates`, in
both cases only candidates at least as new as every unpromoted one; and
a parseable Timespan promotes a candidate exactly when its timestamp is
strictly newer than `now` minus the parsed duration. -/
theorem c5_min_preserve_stage (intents : List SIntent) (j : SJob) (now : DT) :
    (∀ (i : Nat) (x y : SIntent), intents[i]? = some x →
      (minPreserveStage intents j now)[i]? = some y →
      ¬(x.kind = .Delete ∧ x.job = j.id) → y = x) ∧
    (j.preserve.min = .Variant .All →
      ∀ (i : Nat) (x : SIntent), intents[i]? = some x → x.kind = .Delete → x.job = j.id →
        (minPreserveStage intents j now)[i]? = some { x with kind := .Keep }) ∧
    (∀ n, j.preserve.min = .Count n →
      (promotedIdx intents (minPreserveStage intents j now)).length =
        min n (candidates intents j).length) ∧
    (j.preserve.min = .Variant .Latest →
      (promotedIdx intents (minPreserveStage intents j now)).length =
        min 1 (candidates intents j).length) ∧
    (((∃ n, j.preserve.min = .Count n) ∨ j.preserve.min = .Variant .Latest) →
      ∀ (i k : Nat) (x y : SIntent), intents[i]? = some x → intents[k]? = some y →
        x.kind = .Delete → x.job = j.id → y.kind = .Delete → y.job = j.id →
        (∀ z, (minPreserveStage intents j now)[i]? = some z → z.kind = .Keep) →
        (∀ z, (minPreserveStage intents j now)[k]? = some z → z.kind = .Delete) →
        y.ts ≤ x.ts) ∧
    (∀ s d, j.preserve.min = .Timespan s → duration_from_str s = .ok d →
      ∀ (i : Nat) (x : SIntent), intents[i]? = some x → x.kind = .Delete → x.job = j.id →
        ((minPreserveStage intents j now)[i]? = some { x with kind := .Keep } ↔
          now - d < x.ts) ∧
        (¬ now - d < x.ts → (minPreserveStage intents j now)[i]? = some x)) := by
  refine ⟨?_, ?_, ?_, ?_, ?_, ?_⟩
  · -- only the job's Delete candidates are touched
    intro i x y hx hy hnc
    have hvi := minPreserveStage_getElem? intents j now hx
    rw [hvi] at hy
    rw [Option.some.injEq] at hy
    by_cases hik : i ∈ minPreserveKeeps (candidates intents j) j now
    · exact absurd (cands_fst_spec (minPreserveKeeps_subset hik) hx) hnc
    · rw [if_neg hik] at hy
      exact hy.symm
  · -- All
    intro hmin i x hx hxk hxj
    have hkeq : minPreserveKeeps (candidates intents j) j now =
        (candidates intents j).map Prod.fst := by
      simp only [minPreserveKeeps, hmin]
    have hik : i ∈ minPreserveKeeps (candidates intents j) j now := by
      rw [hkeq]
      exact List.mem_map.mpr ⟨(i, x.ts), candidates_complete hx hxk hxj, rfl⟩
    rw [minPreserveStage_getElem? intents j now hx, if_pos hik]
  · -- Count n: exact count
    intro n hmin
    have hkeq : minPreserveKeeps (candidates intents j) j now =
        ((candidates intents j).take n).map Prod.fst := by
      simp only [minPreserveKeeps, hmin]
    have hnd : (((candidates intents j).take n).map Prod.fst).Nodup := by
      rw [List.map_take]
      exact (List.take_sublist n _).nodup (candidates_fst_nodup intents j)
    have hcount := promotedIdx_length_setKeep intents
      (((candidates intents j).take n).map Prod.fst) hnd ?_
    · show (promotedIdx intents
        (setKeepAt intents (minPreserveKeeps (candidates intents j) j now))).length = _
      rw [hkeq, hcount, List.length_map, List.length_take]
    · intro i hik
      obtain ⟨⟨i', t⟩, hmem, hfst⟩ := List.mem_map.mp hik
      cases hfst
      obtain ⟨x, hx, hk, -, -⟩ := candidates_sound (List.take_subset n _ hmem)
      exact ⟨x, hx, hk⟩
  · -- Latest: exact count
    intro hmin
    have hkeq : minPreserveKeeps (candidates intents j) j now =
        ((candidates intents j).take 1).map Prod.fst := by
      simp only [minPreserveKeeps, hmin]
    have hnd : (((candidates intents j).take 1).map Prod.fst).Nodup := by
      rw [List.map_take]
      exact (List.take_sublist 1 _).nodup (candidates_fst_nodup intents j)
    have hcount := promotedIdx_length_setKeep intents
      (((candidates intents j).take 1).map Prod.fst) hnd ?_
    · show (promotedIdx intents
        (setKeepAt intents (minPreserveKeeps (candidates intents j) j now))).length = _
      rw [hkeq, hcount, List.length_map, List.length_take]
    · intro i hik
      obtain ⟨⟨i', t⟩, hmem, hfst⟩ := List.mem_map.mp hik
      cases hfst
      obtain ⟨x, hx, hk, -, -⟩ := candidates_sound (List.take_subset 1 _ hmem)
      exact ⟨x, hx, hk⟩
  · -- Count/Latest promote newest
    rintro (⟨n, hmin⟩ | hmin)
    · exact take_keeps_dominates intents j now n (by simp only [minPreserveKeeps, hmin])
    · exact take_keeps_dominates intents j now 1 (by simp only [minPreserveKeeps, hmin])
  · -- Timespan with parseable spec
    intro s d hmin hd i x hx hxk hxj
    have hkeq : minPreserveKeeps (candidates intents j) j now =
        ((candidates intents j).takeWhile fun c => decide (now - d < c.2)).map Prod.fst := by
      simp only [minPreserveKeeps, hmin, hd]
    have hvi := minPreserveStage_getElem? intents j now hx
    constructor
    · constructor
      · intro hout
        rw [hvi, Option.some.injEq] at hout
        by_cases hik : i ∈ minPreserveKeeps (candidates intents j) j now
        · rw [hkeq] at hik
          obtain ⟨⟨i', t⟩, hmem, hfst⟩ := List.mem_map.mp hik
          cases hfst
          have hpred := List.mem_takeWhile_imp hmem
          have htc : t = x.ts :=
            candidates_ts ((List.takeWhile_sublist _).subset hmem) hx
          rw [htc] at hpred
          simpa using hpred
        · rw [if_neg hik] at hout
          have : x.kind = IntentType.Keep := by rw [hout]
          rw [hxk] at this
          cases this
      · intro hcut
        have hik : i ∈ minPreserveKeeps (candidates intents j) j now := by
          rw [hkeq]
          refine List.mem_map.mpr ⟨(i, x.ts), ?_, rfl⟩
          exact mem_takeWhile_of_sorted (candidates_sorted intents j) (i, x.ts)
            (candidates_complete hx hxk hxj) hcut
        rw [hvi, if_pos hik]
    · intro hncut
      have hik : i ∉ minPreserveKeeps (candidates intents j) j now := by
        intro hik
        rw [hkeq] at hik
        obtain ⟨⟨i', t⟩, hmem, hfst⟩ := List.mem_map.mp hik
        cases hfst
        have hpred := List.mem_takeWhile_imp hmem
        have htc : t = x.ts :=
          candidates_ts ((List.takeWhile_sublist _).subset hmem) hx
        rw [htc] at hpred
        exact hncut (by simpa using hpred)
      rw [hvi, if_neg hik]

/-- Five Delete candidates of one job, for instantiating C5. -/
def c5Intents : List SIntent :=
  [⟨.Delete, 0, 100⟩, ⟨.Delete, 0, 300⟩, ⟨.Delete, 0, 200⟩, ⟨.Delete, 0, 500⟩,
    ⟨.Delete, 0, 400⟩]

def c5Job : SJob := ⟨0, ⟨"1h", .Count 2⟩⟩

theorem c5_witness :
    (promotedIdx c5Intents (minPreserveStage c5Intents c5Job 600)).length =
      min 2 (candidates c5Intents c5Job).length :=
  (c5_min_preserve_stage c5Intents c5Job 600).2.2.1 2 rfl

/-!
### Name handling: claim C9

`Intent::timestamp` runs the capture regex
`.*\.(\d{4}-\d{2}-\d{2}T\d{2}:\d{2}:\d{2}([+-]\d{2}:\d{2})?)` over the
intent's name and feeds capture group 1 to `DateTime::parse_from_rfc3339`,
unwrapping both results (a panic on failure, modeled as `none`).  With the
greedy leading `.*`, group 1 is the timestamp-shaped text after the last
dot whose suffix matches the pattern; the optional offset group is taken
greedily when present.  The delete gatherer accepts a directory name when
the unanchored regex `<basename>.<same timestamp pattern>` matches it
(the separator `.` of the `format!` is itself a regex any-char).  The
create gatherer names snapshots `<basename>.<to_rfc3339_opts(Secs, true)>`,
which renders a zero offset as `Z` and otherwise `±hh:mm` (offsets are
taken minute-granular; leap-second names are out of scope). -/

/-- Value of an ASCII digit. -/
def digitVal (c : Char) : Nat := c.toNat - 48

/-- Match `\d{4}-\d{2}-\d{2}T\d{2}:\d{2}:\d{2}([+-]\d{2}:\d{2})?` at the
head of the list (offset group greedy); returns the matched text and the
remaining input. -/
def tsPatternAt (s : List Char) : Option (List Char × List Char) :=
  match s with
  | y1 :: y2 :: y3 :: y4 :: '-' :: m1 :: m2 :: '-' :: d1 :: d2 :: 'T' ::
      h1 :: h2 :: ':' :: mi1 :: mi2 :: ':' :: s1 :: s2 :: rest =>
    if y1.isDigit ∧ y2.isDigit ∧ y3.isDigit ∧ y4.isDigit ∧ m1.isDigit ∧ m2.isDigit ∧
        d1.isDigit ∧ d2.isDigit ∧ h1.isDigit ∧ h2.isDigit ∧ mi1.isDigit ∧ mi2.isDigit ∧
        s1.isDigit ∧ s2.isDigit then
      let base := [y1, y2, y3, y4, '-', m1, m2, '-', d1, d2, 'T',
        h1, h2, ':', mi1, mi2, ':', s1, s2]
      match rest with
      | sg :: o1 :: o2 :: ':' :: o3 :: o4 :: rest2 =>
        if (sg = '+' ∨ sg = '-') ∧ o1.isDigit ∧ o2.isDigit ∧ o3.isDigit ∧ o4.isDigit then
          some (base ++ [sg, o1, o2, ':', o3, o4], rest2)
        else some (base, rest)
      | _ => some (base, rest)
    else none
  | _ => none

/-- Capture group 1 of `.*\.(pattern)`: the pattern match following the
last dot that is followed by one (the greedy `.*` backtracks from the
end). -/
def findTsCapture : List Char → Option (List Char)
  | [] => none
  | c :: rest =>
    match findTsCapture rest with
    | some r => some r
    | none => if c = '.' then (tsPatternAt rest).map Prod.fst else none

/-- Days of a month in the proleptic Gregorian calendar. -/
def daysInMonth (y m : Int) : Int :=
  if m = 2 then (if isLeap y then 29 else 28)
  else if m = 4 ∨ m = 6 ∨ m = 9 ∨ m = 11 then 30
  else 31

/-- `DateTime::parse_from_rfc3339` restricted to the second-precision
shapes the capture regex can produce: date and time fields in range, and
a mandatory offset, `Z` or `±hh:mm` with hh ≤ 23, mm ≤ 59.  Returns the
naive local seconds and the offset in seconds. -/
def parse_from_rfc3339 (s : List Char) : Option (DT × Int) :=
  match s with
  | y1 :: y2 :: y3 :: y4 :: '-' :: m1 :: m2 :: '-' :: d1 :: d2 :: 'T' ::
      h1 :: h2 :: ':' :: mi1 :: mi2 :: ':' :: s1 :: s2 :: off =>
    if y1.isDigit ∧ y2.isDigit ∧ y3.isDigit ∧ y4.isDigit ∧ m1.isDigit ∧ m2.isDigit ∧
        d1.isDigit ∧ d2.isDigit ∧ h1.isDigit ∧ h2.isDigit ∧ mi1.isDigit ∧ mi2.isDigit ∧
        s1.isDigit ∧ s2.isDigit then
      let y : Int := (digitVal y1 * 1000 + digitVal y2 * 100 + digitVal y3 * 10 +
        digitVal y4 : Nat)
      let mo : Int := (digitVal m1 * 10 + digitVal m2 : Nat)
      let dd : Int := (digitVal d1 * 10 + digitVal d2 : Nat)
      let hh : Int := (digitVal h1 * 10 + digitVal h2 : Nat)
      let mi : Int := (digitVal mi1 * 10 + digitVal mi2 : Nat)
      let ss : Int := (digitVal s1 * 10 + digitVal s2 : Nat)
      if 1 ≤ mo ∧ mo ≤ 12 ∧ 1 ≤ dd ∧ dd ≤ daysInMonth y mo ∧ hh ≤ 23 ∧ mi ≤ 59 ∧
          ss ≤ 59 then
        match off with
        | ['Z'] => some (mkDT y mo dd hh mi ss, 0)
        | [sg, o1, o2, ':', o3, o4] =>
          if (sg = '+' ∨ sg = '-') ∧ o1.isDigit ∧ o2.isDigit ∧ o3.isDigit ∧ o4.isDigit then
            let oh : Int := (digitVal o1 * 10 + digitVal o2 : Nat)
            let om : Int := (digitVal o3 * 10 + digitVal o4 : Nat)
            if oh ≤ 23 ∧ om ≤ 59 then
              some (mkDT y mo dd hh mi ss,
                if sg = '+' then oh * 3600 + om * 60 else -(oh * 3600 + om * 60))
            else none
          else none
        | _ => none
      else none
    else none
  | _ => none

/-- `Intent::timestamp`: capture, then RFC-3339 parse; `none` models the
`unwrap` panics. -/
def intentTimestamp (name : List Char) : Option (DT × Int) :=
  match findTsCapture name with
  | none => none
  | some cap => parse_from_rfc3339 cap

/-- One regex character of the literal part of the delete-gatherer
pattern: matches itself, and `.` (a regex any-char) matches anything. -/
def patCharMatch (p c : Char) : Bool := p = c || p = '.'

/-- Match the literal part (basename and the separator, which is an
any-char) at the head of the input. -/
def litMatchAt : List Char → List Char → Option (List Char)
  | [], s => some s
  | _ :: _, [] => none
  | p :: ps, c :: cs => if patCharMatch p c then litMatchAt ps cs else none

def deleteMatchAt (base s : List Char) : Bool :=
  match litMatchAt (base ++ ['.']) s with
  | some rest => (tsPatternAt rest).isSome
  | none => false

/-- The delete gatherer's unanchored `re.is_match` over a file name. -/
def deleteNameMatches (base : List Char) : List Char → Bool
  | [] => deleteMatchAt base []
  | c :: rest => deleteMatchAt base (c :: rest) || deleteNameMatches base rest

def pad2 (n : Nat) : List Char := [Nat.digitChar (n / 10 % 10), Nat.digitChar (n % 10)]

def pad4 (n : Nat) : List Char :=
  [Nat.digitChar (n / 1000 % 10), Nat.digitChar (n / 100 % 10),
    Nat.digitChar (n / 10 % 10), Nat.digitChar (n % 10)]

/-- The offset suffix of `to_rfc3339_opts(SecondsFormat::Secs, true)`:
`Z` for a zero offset, otherwise `±hh:mm` (minutes). -/
def renderOffset (offMin : Int) : List Char :=
  if offMin = 0 then ['Z']
  else if 0 ≤ offMin then
    '+' :: pad2 (offMin.toNat / 60) ++ ':' :: pad2 (offMin.toNat % 60)
  else
    '-' :: pad2 ((-offMin).toNat / 60) ++ ':' :: pad2 ((-offMin).toNat % 60)

/-- A second-precision RFC 3339 rendering, as the create gatherer emits. -/
def rfc3339Render (y mo d hh mi ss : Nat) (offMin : Int) : List Char :=
  pad4 y ++ '-' :: pad2 mo ++ '-' :: pad2 d ++ 'T' :: pad2 hh ++ ':' :: pad2 mi ++
    ':' :: pad2 ss ++ renderOffset offMin

/-- The create gatherer's snapshot name `<basename>.<now RFC 3339>`. -/
def createName (base : List Char) (y mo d hh mi ss : Nat) (offMin : Int) : List Char :=
  base ++ '.' :: rfc3339Render y mo d hh mi ss offMin

lemma isDigit_digitChar_mod (n : Nat) : (Nat.digitChar (n % 10)).isDigit = true := by
  have h : n % 10 < 10 := Nat.mod_lt _ (by omega)
  interval_cases hn : n % 10 <;> decide

lemma digitVal_digitChar_mod (n : Nat) : digitVal (Nat.digitChar (n % 10)) = n % 10 := by
  have h : n % 10 < 10 := Nat.mod_lt _ (by omega)
  interval_cases hn : n % 10 <;> decide

lemma digitChar_mod_ne_dot (n : Nat) : Nat.digitChar (n % 10) ≠ '.' := by
  have h : n % 10 < 10 := Nat.mod_lt _ (by omega)
  interval_cases hn : n % 10 <;> decide

lemma no_dot_pad2 (n : Nat) : '.' ∉ pad2 n := by
  intro hmem
  simp only [pad2, List.mem_cons, List.not_mem_nil, or_false] at hmem
  rcases hmem with h | h
  · exact digitChar_mod_ne_dot (n / 10) h.symm
  · exact digitChar_mod_ne_dot n h.symm

lemma no_dot_pad4 (n : Nat) : '.' ∉ pad4 n := by
  intro hmem
  simp only [pad4, List.mem_cons, List.not_mem_nil, or_false] at hmem
  rcases hmem with h | h | h | h
  · exact digitChar_mod_ne_dot (n / 1000) h.symm
  · exact digitChar_mod_ne_dot (n / 100) h.symm
  · exact digitChar_mod_ne_dot (n / 10) h.symm
  · exact digitChar_mod_ne_dot n h.symm

lemma no_dot_renderOffset (offMin : Int) : '.' ∉ renderOffset offMin := by
  intro hmem
  unfold renderOffset at hmem
  split_ifs at hmem with h1 h2
  · simp at hmem
  · simp only [List.cons_append, List.mem_cons, List.mem_append] at hmem
    rcases hmem with h | h
    · cases h
    · rcases h with h | h
      · exact no_dot_pad2 _ h
      · rcases h with h | h
        · cases h
        · exact no_dot_pad2 _ h
  · simp only [List.cons_append, List.mem_cons, List.mem_append] at hmem
    rcases hmem with h | h
    · cases h
    · rcases h with h | h
      · exact no_dot_pad2 _ h
      · rcases h with h | h
        · cases h
        · exact no_dot_pad2 _ h

lemma no_dot_render (y mo d hh mi ss : Nat) (offMin : Int) :
    '.' ∉ rfc3339Render y mo d hh mi ss offMin := by
  intro hmem
  simp only [rfc3339Render, List.mem_append, List.mem_cons] at hmem
  rcases hmem with (((((h | h) | h) | h) | h) | h) | h
  · exact no_dot_pad4 _ h
  · rcases h with h | h
    · cases h
    · exact no_dot_pad2 _ h
  · rcases h with h | h
    · cases h
    · exact no_dot_pad2 _ h
  · rcases h with h | h
    · cases h
    · exact no_dot_pad2 _ h
  · rcases h with h | h
    · cases h
    · exact no_dot_pad2 _ h
  · rcases h with h | h
    · cases h
    · exact no_dot_pad2 _ h
  · exact no_dot_renderOffset _ h

lemma findTsCapture_no_dot : ∀ {s : List Char}, '.' ∉ s → findTsCapture s = none := by
  intro s
  induction s with
  | nil => intro _; rfl
  | cons c rest ih =>
    intro h
    simp only [List.mem_cons] at h
    push_neg at h
    rw [findTsCapture, ih h.2]
    rw [if_neg fun hc => h.1 hc.symm]

lemma findTsCapture_at_last_dot {render : List Char} (hnd : '.' ∉ render)
    {v : List Char × List Char} (hsome : tsPatternAt render = some v) :
    ∀ pre : List Char, findTsCapture (pre ++ '.' :: render) = some v.1 := by
  intro pre
  induction pre with
  | nil =>
    rw [List.nil_append, findTsCapture, findTsCapture_no_dot hnd, hsome]
    rfl
  | cons c pre ih =>
    rw [List.cons_append, findTsCapture, ih]

lemma litMatchAt_self : ∀ (l rest : List Char), litMatchAt l (l ++ rest) = some rest := by
  intro l
  induction l with
  | nil => intro rest; rfl
  | cons p ps ih =>
    intro rest
    rw [List.cons_append, litMatchAt]
    simp [patCharMatch, ih]

lemma deleteNameMatches_of_matchAt {base name : List Char}
    (h : deleteMatchAt base name = true) : deleteNameMatches base name = true := by
  cases name with
  | nil => simpa [deleteNameMatches] using h
  | cons c rest => simp [deleteNameMatches, h]

lemma tsPatternAt_render (y mo d hh mi ss : Nat) (offMin : Int) (hoff : offMin ≠ 0) :
    tsPatternAt (rfc3339Render y mo d hh mi ss offMin) =
      some (rfc3339Render y mo d hh mi ss offMin, []) := by
  unfold rfc3339Render pad4 pad2 renderOffset
  rw [if_neg hoff]
  by_cases hpos : 0 ≤ offMin
  · rw [if_pos hpos]
    simp only [pad2, List.cons_append, List.nil_append]
    simp only [tsPatternAt, isDigit_digitChar_mod]
    simp
  · rw [if_neg hpos]
    simp only [pad2, List.cons_append, List.nil_append]
    simp only [tsPatternAt, isDigit_digitChar_mod]
    simp

lemma parse_render (y mo d hh mi ss : Nat) (offMin : Int)
    (hy : y ≤ 9999) (hmo : 1 ≤ mo) (hmo' : mo ≤ 12) (hd : 1 ≤ d)
    (hd' : (d : Int) ≤ daysInMonth (y : Int) (mo : Int)) (hhh : hh ≤ 23) (hmi : mi ≤ 59)
    (hss : ss ≤ 59) (ho1 : offMin ≠ 0) (ho2 : -1440 < offMin) (ho3 : offMin < 1440) :
    parse_from_rfc3339 (rfc3339Render y mo d hh mi ss offMin) =
      some (mkDT y mo d hh mi ss, 60 * offMin) := by
  unfold rfc3339Render pad4 pad2 renderOffset
  rw [if_neg ho1]
  have hyv : digitVal (Nat.digitChar (y / 1000 % 10)) * 1000 +
      digitVal (Nat.digitChar (y / 100 % 10)) * 100 +
      digitVal (Nat.digitChar (y / 10 % 10)) * 10 + digitVal (Nat.digitChar (y % 10)) = y := by
    simp only [digitVal_digitChar_mod]
    omega
  have hmov : digitVal (Nat.digitChar (mo / 10 % 10)) * 10 +
      digitVal (Nat.digitChar (mo % 10)) = mo := by
    simp only [digitVal_digitChar_mod]
    omega
  have hdv : digitVal (Nat.digitChar (d / 10 % 10)) * 10 +
      digitVal (Nat.digitChar (d % 10)) = d := by
    simp only [digitVal_digitChar_mod]
    have : d ≤ 31 := by
      unfold daysInMonth at hd'
      split_ifs at hd' <;> omega
    omega
  have hhv : digitVal (Nat.digitChar (hh / 10 % 10)) * 10 +
      digitVal (Nat.digitChar (hh % 10)) = hh := by
    simp only [digitVal_digitChar_mod]
    omega
  have hmiv : digitVal (Nat.digitChar (mi / 10 % 10)) * 10 +
      digitVal (Nat.digitChar (mi % 10)) = mi := by
    simp only [digitVal_digitChar_mod]
    omega
  have hssv : digitVal (Nat.digitChar (ss / 10 % 10)) * 10 +
      digitVal (Nat.digitChar (ss % 10)) = ss := by
    simp only [digitVal_digitChar_mod]
    omega
  by_cases hpos : 0 ≤ offMin
  · rw [if_pos hpos]
    simp only [pad2, List.cons_append, List.nil_append]
    simp only [parse_from_rfc3339, isDigit_digitChar_mod]
    simp only [hyv, hmov, hdv, hhv, hmiv, hssv]
    have hohv : digitVal (Nat.digitChar (offMin.toNat / 60 / 10 % 10)) * 10 +
        digitVal (Nat.digitChar (offMin.toNat / 60 % 10)) = offMin.toNat / 60 := by
      simp only [digitVal_digitChar_mod]
      omega
    have homv : digitVal (Nat.digitChar (offMin.toNat % 60 / 10 % 10)) * 10 +
        digitVal (Nat.digitChar (offMin.toNat % 60 % 10)) = offMin.toNat % 60 := by
      simp only [digitVal_digitChar_mod]
      omega
    simp only [hohv, homv]
    rw [if_pos (by norm_num)]
    rw [if_pos ⟨by omega, by omega, by omega, hd', by omega, by omega, by omega⟩]
    rw [if_pos (by norm_num)]
    rw [if_pos ⟨by omega, by omega⟩]
    rw [if_pos trivial]
    simp only [Option.some.injEq, Prod.mk.injEq]
    exact ⟨trivial, by omega⟩
  · rw [if_neg hpos]
    simp only [pad2, List.cons_append, List.nil_append]
    simp only [parse_from_rfc3339, isDigit_digitChar_mod]
    simp only [hyv, hmov, hdv, hhv, hmiv, hssv]
    have hohv : digitVal (Nat.digitChar ((-offMin).toNat / 60 / 10 % 10)) * 10 +
        digitVal (Nat.digitChar ((-offMin).toNat / 60 % 10)) = (-offMin).toNat / 60 := by
      simp only [digitVal_digitChar_mod]
      omega
    have homv : digitVal (Nat.digitChar ((-offMin).toNat % 60 / 10 % 10)) * 10 +
        digitVal (Nat.digitChar ((-offMin).toNat % 60 % 10)) = (-offMin).toNat % 60 := by
      simp only [digitVal_digitChar_mod]
      omega
    simp only [hohv, homv]
    rw [if_pos (by norm_num)]
    rw [if_pos ⟨by omega, by omega, by omega, hd', by omega, by omega, by omega⟩]
    rw [if_pos (by norm_num)]
    rw [if_pos ⟨by omega, by omega⟩]
    rw [if_neg (by decide)]
    simp only [Option.some.injEq, Prod.mk.injEq]
    exact ⟨trivial, by omega⟩

lemma intentTimestamp_z_none (base : List Char) (y mo d hh mi ss : Nat) :
    intentTimestamp (createName base y mo d hh mi ss 0) = none := by
  have hnd := no_dot_render y mo d hh mi ss 0
  have hts : tsPatternAt (rfc3339Render y mo d hh mi ss 0) =
      some ([Nat.digitChar (y / 1000 % 10), Nat.digitChar (y / 100 % 10),
        Nat.digitChar (y / 10 % 10), Nat.digitChar (y % 10), '-',
        Nat.digitChar (mo / 10 % 10), Nat.digitChar (mo % 10), '-',
        Nat.digitChar (d / 10 % 10), Nat.digitChar (d % 10), 'T',
        Nat.digitChar (hh / 10 % 10), Nat.digitChar (hh % 10), ':',
        Nat.digitChar (mi / 10 % 10), Nat.digitChar (mi % 10), ':',
        Nat.digitChar (ss / 10 % 10), Nat.digitChar (ss % 10)], ['Z']) := by
    unfold rfc3339Render pad4 pad2 renderOffset
    rw [if_pos rfl]
    simp only [List.cons_append, List.nil_append]
    simp only [tsPatternAt, isDigit_digitChar_mod]
    simp
  unfold intentTimestamp createName
  rw [findTsCapture_at_last_dot hnd hts base]
  show parse_from_rfc3339 _ = none
  simp only [parse_from_rfc3339, isDigit_digitChar_mod]
  split_ifs <;> rfl

/-- Claim C9 (amended): extraction succeeds for names whose embedded
timestamp is a well-formed, field-valid rendering with an explicit
numeric offset — in particular every create-gatherer name produced under
a nonzero local offset, which also matches the delete gatherer's pattern.
It fails in two ways the frozen claim rules out: a zero local offset
renders the timestamp with `Z`, which the capture regex's optional
`±hh:mm` group cannot take, so `parse_from_rfc3339` fails and the
`unwrap` panics; and a name can match the gatherer's pattern with an
explicit offset yet carry out-of-range fields (the pattern checks only
digit shape), e.g. hour 25, on which `parse_from_rfc3339` fails and the
`unwrap` panics as well — the last two conjuncts exhibit such a name. -/
theorem c9_timestamp_extraction (base : List Char) (y mo d hh mi ss : Nat) (offMin : Int)
    (hy : y ≤ 9999) (hmo : 1 ≤ mo) (hmo' : mo ≤ 12) (hd : 1 ≤ d)
    (hd' : (d : Int) ≤ daysInMonth (y : Int) (mo : Int)) (hhh : hh ≤ 23) (hmi : mi ≤ 59)
    (hss : ss ≤ 59) (ho1 : offMin ≠ 0) (ho2 : -1440 < offMin) (ho3 : offMin < 1440) :
    deleteNameMatches base (createName base y mo d hh mi ss offMin) = true ∧
    intentTimestamp (createName base y mo d hh mi ss offMin) =
      some (mkDT y mo d hh mi ss, 60 * offMin) ∧
    intentTimestamp (createName base y mo d hh mi ss 0) = none ∧
    deleteNameMatches "vol".data "vol.2022-01-01T25:00:00+01:00".data = true ∧
    intentTimestamp "vol.2022-01-01T25:00:00+01:00".data = none := by
  have hts := tsPatternAt_render y mo d hh mi ss offMin ho1
  have hnd := no_dot_render y mo d hh mi ss offMin
  refine ⟨?_, ?_, intentTimestamp_z_none base y mo d hh mi ss, rfl, rfl⟩
  · apply deleteNameMatches_of_matchAt
    unfold deleteMatchAt createName
    have happ : base ++ ['.'] ++ rfc3339Render y mo d hh mi ss offMin =
        base ++ '.' :: rfc3339Render y mo d hh mi ss offMin := by
      simp
    rw [← happ, litMatchAt_self]
    show (tsPatternAt (rfc3339Render y mo d hh mi ss offMin)).isSome = true
    rw [hts]
    rfl
  · unfold intentTimestamp createName
    rw [findTsCapture_at_last_dot hnd hts base]
    show parse_from_rfc3339 (rfc3339Render y mo d hh mi ss offMin) = _
    exact parse_render y mo d hh mi ss offMin hy hmo hmo' hd hd' hhh hmi hss ho1 ho2 ho3

/-- The claim as frozen is false: `vol.2022-01-01T00:00:00` matches the
delete gatherer's pattern (the offset group is optional) yet timestamp
extraction fails, and the create gatherer's own name under a UTC local
offset ends in `Z` and fails as well. -/
theorem c9_counterexample :
    deleteNameMatches "vol".data "vol.2022-01-01T00:00:00".data = true ∧
    intentTimestamp "vol.2022-01-01T00:00:00".data = none ∧
    createName "vol".data 2022 1 1 0 0 0 0 = "vol.2022-01-01T00:00:00Z".data ∧
    intentTimestamp "vol.2022-01-01T00:00:00Z".data = none :=
  ⟨rfl, rfl, rfl, rfl⟩

theorem c9_witness :
    deleteNameMatches "vol".data (createName "vol".data 2022 6 15 10 30 5 120) = true ∧
    intentTimestamp (createName "vol".data 2022 6 15 10 30 5 120) =
      some (mkDT 2022 6 15 10 30 5, 60 * 120) ∧
    intentTimestamp (createName "vol".data 2022 6 15 10 30 5 0) = none ∧
    deleteNameMatches "vol".data "vol.2022-01-01T25:00:00+01:00".data = true ∧
    intentTimestamp "vol.2022-01-01T25:00:00+01:00".data = none :=
  c9_timestamp_extraction "vol".data 2022 6 15 10 30 5 120 (by norm_num) (by norm_num)
    (by norm_num) (by norm_num) (by decide) (by norm_num) (by norm_num) (by norm_num)
    (by norm_num) (by norm_num) (by norm_num)

end Ghee
